import Mathlib

/-!
Verification of the physics and sphere-tree core of the marble-gravity
simulator.  The Rust source (`crates/physics/src/body.rs`,
`crates/physics/src/lib.rs`, `src/spheretree.rs`, `src/nbody.rs`) is
shallow-embedded here: `f32` values are modelled as exact real numbers,
`cgmath::Vector3<f32>` as `Vec3`, vectors of bodies as lists, and fallible
operations (`unwrap`, arithmetic underflow panics, potentially diverging
loops) as `Option`-returning functions where `none` models a panic or
non-termination.
-/

namespace MarbleGravity

/-- Embedding of `cgmath::Vector3<f32>` with exact real components. -/
@[ext] structure Vec3 where
  x : ℝ
  y : ℝ
  z : ℝ

namespace Vec3

noncomputable instance : Zero Vec3 := ⟨⟨0, 0, 0⟩⟩
noncomputable instance : Add Vec3 := ⟨fun a b => ⟨a.x + b.x, a.y + b.y, a.z + b.z⟩⟩
noncomputable instance : Neg Vec3 := ⟨fun a => ⟨-a.x, -a.y, -a.z⟩⟩
noncomputable instance : Sub Vec3 := ⟨fun a b => ⟨a.x - b.x, a.y - b.y, a.z - b.z⟩⟩
noncomputable instance : SMul ℝ Vec3 := ⟨fun t a => ⟨t * a.x, t * a.y, t * a.z⟩⟩
/-- Componentwise division by a scalar, as `cgmath` implements `Vector3<f32> / f32`. -/
noncomputable instance : HDiv Vec3 ℝ Vec3 := ⟨fun a t => ⟨a.x / t, a.y / t, a.z / t⟩⟩

@[simp] theorem zero_x : (0 : Vec3).x = 0 := rfl
@[simp] theorem zero_y : (0 : Vec3).y = 0 := rfl
@[simp] theorem zero_z : (0 : Vec3).z = 0 := rfl
@[simp] theorem add_x (a b : Vec3) : (a + b).x = a.x + b.x := rfl
@[simp] theorem add_y (a b : Vec3) : (a + b).y = a.y + b.y := rfl
@[simp] theorem add_z (a b : Vec3) : (a + b).z = a.z + b.z := rfl
@[simp] theorem neg_x (a : Vec3) : (-a).x = -a.x := rfl
@[simp] theorem neg_y (a : Vec3) : (-a).y = -a.y := rfl
@[simp] theorem neg_z (a : Vec3) : (-a).z = -a.z := rfl
@[simp] theorem sub_x (a b : Vec3) : (a - b).x = a.x - b.x := rfl
@[simp] theorem sub_y (a b : Vec3) : (a - b).y = a.y - b.y := rfl
@[simp] theorem sub_z (a b : Vec3) : (a - b).z = a.z - b.z := rfl
@[simp] theorem smul_x (t : ℝ) (a : Vec3) : (t • a).x = t * a.x := rfl
@[simp] theorem smul_y (t : ℝ) (a : Vec3) : (t • a).y = t * a.y := rfl
@[simp] theorem smul_z (t : ℝ) (a : Vec3) : (t • a).z = t * a.z := rfl
@[simp] theorem div_x (a : Vec3) (t : ℝ) : (a / t).x = a.x / t := rfl
@[simp] theorem div_y (a : Vec3) (t : ℝ) : (a / t).y = a.y / t := rfl
@[simp] theorem div_z (a : Vec3) (t : ℝ) : (a / t).z = a.z / t := rfl
@[simp] theorem mk_x (a b c : ℝ) : (Vec3.mk a b c).x = a := rfl
@[simp] theorem mk_y (a b c : ℝ) : (Vec3.mk a b c).y = b := rfl
@[simp] theorem mk_z (a b c : ℝ) : (Vec3.mk a b c).z = c := rfl

noncomputable instance : AddCommGroup Vec3 where
  add_assoc a b c := by ext <;> simp <;> ring
  zero_add a := by ext <;> simp
  add_zero a := by ext <;> simp
  add_comm a b := by ext <;> simp <;> ring
  neg_add_cancel a := by ext <;> simp
  sub_eq_add_neg a b := by ext <;> simp <;> ring
  nsmul n a := (n : ℝ) • a
  nsmul_zero a := by ext <;> simp
  nsmul_succ n a := by ext <;> simp <;> ring
  zsmul n a := (n : ℝ) • a
  zsmul_zero' a := by ext <;> simp
  zsmul_succ' n a := by ext <;> simp <;> ring
  zsmul_neg' n a := by ext <;> simp <;> ring

noncomputable instance : Module ℝ Vec3 where
  one_smul a := by ext <;> simp
  mul_smul s t a := by ext <;> simp <;> ring
  smul_zero t := by ext <;> simp
  smul_add t a b := by ext <;> simp <;> ring
  add_smul s t a := by ext <;> simp <;> ring
  zero_smul a := by ext <;> simp

noncomputable instance : DecidableEq Vec3 := Classical.decEq _

/-- Embedding of `cgmath`'s `dot` on `Vector3<f32>`. -/
def dot (a b : Vec3) : ℝ := a.x * b.x + a.y * b.y + a.z * b.z

/-- Embedding of `cgmath`'s `magnitude2` (squared length). -/
def quadrance (a : Vec3) : ℝ := dot a a

/-- Embedding of `cgmath`'s `magnitude` (Euclidean length). -/
noncomputable def magnitude (a : Vec3) : ℝ := Real.sqrt (quadrance a)

theorem quadrance_nonneg (a : Vec3) : 0 ≤ quadrance a := by
  unfold quadrance dot
  nlinarith [mul_self_nonneg a.x, mul_self_nonneg a.y, mul_self_nonneg a.z]

theorem quadrance_eq_zero_iff (a : Vec3) : quadrance a = 0 ↔ a = 0 := by
  unfold quadrance dot
  constructor
  · intro h
    have hx : a.x = 0 ∧ a.y = 0 ∧ a.z = 0 := by
      constructor
      · nlinarith [sq_nonneg a.x, sq_nonneg a.y, sq_nonneg a.z]
      constructor
      · nlinarith [sq_nonneg a.x, sq_nonneg a.y, sq_nonneg a.z]
      · nlinarith [sq_nonneg a.x, sq_nonneg a.y, sq_nonneg a.z]
    ext <;> simp [hx.1, hx.2.1, hx.2.2]
  · intro h; subst h; simp

theorem magnitude_nonneg (a : Vec3) : 0 ≤ magnitude a := Real.sqrt_nonneg _

theorem magnitude_eq_zero_iff (a : Vec3) : magnitude a = 0 ↔ a = 0 := by
  unfold magnitude
  rw [Real.sqrt_eq_zero (quadrance_nonneg a)]
  exact quadrance_eq_zero_iff a

theorem magnitude_pos (a : Vec3) (h : a ≠ 0) : 0 < magnitude a := by
  rcases lt_or_eq_of_le (magnitude_nonneg a) with h1 | h1
  · exact h1
  · exact absurd ((magnitude_eq_zero_iff a).mp h1.symm) h

theorem sq_magnitude (a : Vec3) : (magnitude a) ^ 2 = quadrance a := by
  unfold magnitude
  exact Real.sq_sqrt (quadrance_nonneg a)

theorem magnitude_neg (a : Vec3) : magnitude (-a) = magnitude a := by
  have h : quadrance (-a) = quadrance a := by
    unfold quadrance dot; simp
  unfold magnitude; rw [h]

theorem neg_sub_vec (a b : Vec3) : a - b = -(b - a) := by ext <;> simp <;> ring

theorem magnitude_sub_comm (a b : Vec3) : magnitude (a - b) = magnitude (b - a) := by
  rw [neg_sub_vec a b, magnitude_neg]

theorem magnitude_smul (t : ℝ) (a : Vec3) :
    magnitude (t • a) = |t| * magnitude a := by
  unfold magnitude quadrance dot
  have h : (t • a).x * (t • a).x + (t • a).y * (t • a).y + (t • a).z * (t • a).z
      = t ^ 2 * (a.x * a.x + a.y * a.y + a.z * a.z) := by simp; ring
  rw [h, Real.sqrt_mul (sq_nonneg t), Real.sqrt_sq_eq_abs]

theorem sub_ne_zero_of_pos_ne {a b : Vec3} (h : a ≠ b) : a - b ≠ 0 := by
  intro hc
  apply h
  have hx := congrArg Vec3.x hc
  have hy := congrArg Vec3.y hc
  have hz := congrArg Vec3.z hc
  simp at hx hy hz
  ext <;> simp [sub_eq_zero] at hx hy hz ⊢ <;> assumption

theorem div_eq_inv_smul (a : Vec3) (t : ℝ) : a / t = (1 / t) • a := by
  ext <;> simp <;> ring

end Vec3

open Vec3

/-- Embedding of the `Body` struct from `crates/physics/src/body.rs`
(`color : u32` becomes a natural number; bit patterns are irrelevant here). -/
structure Body where
  pos : Vec3
  vel : Vec3
  radius : ℝ
  color : ℕ

/-- Constant `SYSTEM_RADIUS` from `crates/physics/src/body.rs`. -/
def SYSTEM_RADIUS : ℝ := 5
/-- Constant `GRAVITY_CONSTANT` from `crates/physics/src/body.rs`. -/
def GRAVITY_CONSTANT : ℝ := 40
/-- Constant `GAP` from `crates/physics/src/body.rs` (`0.001`). -/
noncomputable def GAP : ℝ := 1 / 1000
/-- Constant `STIFFNESS` from `crates/physics/src/body.rs`. -/
def STIFFNESS : ℝ := 1
/-- Constant `DAMPING` from `crates/physics/src/body.rs` (`0.2`). -/
noncomputable def DAMPING : ℝ := 1 / 5
/-- The tick length `PHYSICS_DELTA_TIME.as_secs_f32()` (1 millisecond) in seconds. -/
noncomputable def dtSecs : ℝ := 1 / 1000

namespace Body

/-- One iteration of the accumulation loop in `Body::accel_from`: the
contribution of `other` to the acceleration of `b` (zero when the positions
coincide, mirroring the `continue`). Spring term first, then the gravity
term, exactly as the two `accel += …` statements in the source. -/
noncomputable def pairAccel (b other : Body) : Vec3 :=
  if other.pos = b.pos then 0
  else
    let relPos := other.pos - b.pos
    let distance := magnitude relPos
    let relPosNorm := relPos / distance
    let relVel := dot (other.vel - b.vel) relPosNorm
    let overlap := b.radius + GAP + other.radius - distance
      - relVel * dtSecs * (1 + DAMPING) / 2
    (if 0 < overlap then (-STIFFNESS * overlap / b.radius ^ 3) • relPosNorm else 0)
      + (GRAVITY_CONSTANT * other.radius ^ 3 / distance ^ 2) • relPosNorm

/-- Embedding of `Body::accel_from`: fold of the loop over all bodies with a
zero-initialised accumulator. -/
noncomputable def accel_from (b : Body) (bodies : List Body) : Vec3 :=
  bodies.foldl (fun acc other => acc + pairAccel b other) 0

end Body

/-- The per-body acceleration pass (`self.bodies.iter().map(|b| b.accel_from(&self.bodies))`
in `Physics::advance_to`; `Accel::new` in `src/nbody.rs` is the same loop). -/
noncomputable def accelerationField (bodies : List Body) : List Vec3 :=
  bodies.map (fun b => Body.accel_from b bodies)

section ClaimOneSpec

/-- Modelled from the spec: the gravity term `G · r_j³ / distance² · dir` of
§4.1, with `dir = relPos / distance`. -/
noncomputable def gravityTerm (b o : Body) : Vec3 :=
  (GRAVITY_CONSTANT * o.radius ^ 3 / (magnitude (o.pos - b.pos)) ^ 2) •
    ((o.pos - b.pos) / magnitude (o.pos - b.pos))

/-- Modelled from the spec: `overlap = (r_i + gap + r_j) − distance − relVel·dt·(1+damping)/2`. -/
noncomputable def overlapOf (b o : Body) : ℝ :=
  (b.radius + GAP + o.radius) - magnitude (o.pos - b.pos)
    - (dot (o.vel - b.vel) ((o.pos - b.pos) / magnitude (o.pos - b.pos)))
        * dtSecs * (1 + DAMPING) / 2

/-- Modelled from the spec: the spring term `−stiffness·overlap / r_i³ · dir`. -/
noncomputable def springTerm (b o : Body) : Vec3 :=
  (-STIFFNESS * overlapOf b o / b.radius ^ 3) •
    ((o.pos - b.pos) / magnitude (o.pos - b.pos))

/-- Modelled from the spec (§4.1, restated by the claim): the acceleration of
a body is the sum, over every body at a different position, of the gravity
term plus the spring term gated on `overlap > 0`. -/
noncomputable def accelOfClaim (b : Body) (bodies : List Body) : Vec3 :=
  ((bodies.filter (fun o => o.pos ≠ b.pos)).map
    (fun o => gravityTerm b o + (if 0 < overlapOf b o then springTerm b o else 0))).sum

end ClaimOneSpec

section ClaimOneProof

theorem foldl_add_eq_sum {α M : Type} [AddCommMonoid M] (f : α → M) :
    ∀ (l : List α) (a : M), l.foldl (fun acc x => acc + f x) a = a + (l.map f).sum := by
  intro l
  induction l with
  | nil => intro a; simp
  | cons hd tl ih =>
    intro a
    simp only [List.foldl_cons, List.map_cons, List.sum_cons]
    rw [ih]
    rw [add_assoc]

theorem filter_map_sum_eq {α M : Type} [AddCommMonoid M] (p : α → Prop) [DecidablePred p]
    (f : α → M) (l : List α) :
    ((l.filter (fun o => decide (p o))).map f).sum
      = (l.map (fun o => if p o then f o else 0)).sum := by
  induction l with
  | nil => simp
  | cons hd tl ih =>
    by_cases h : p hd
    · simp [List.filter_cons, h, ih]
    · simp [List.filter_cons, h, ih]

theorem pairAccel_eq_claim_term (b o : Body) :
    Body.pairAccel b o
      = if o.pos ≠ b.pos then
          gravityTerm b o + (if 0 < overlapOf b o then springTerm b o else 0)
        else 0 := by
  by_cases h : o.pos = b.pos
  · simp [Body.pairAccel, h]
  · simp only [Body.pairAccel, if_neg h, ne_eq, h, not_false_iff, if_true]
    rw [add_comm]
    rfl

theorem accel_from_eq_claim (b : Body) (bodies : List Body) :
    Body.accel_from b bodies = accelOfClaim b bodies := by
  unfold Body.accel_from accelOfClaim
  rw [foldl_add_eq_sum (Body.pairAccel b) bodies 0, zero_add]
  have h1 : bodies.filter (fun o => o.pos ≠ b.pos)
      = bodies.filter (fun o => decide (o.pos ≠ b.pos)) := rfl
  rw [h1, filter_map_sum_eq (fun o => o.pos ≠ b.pos)
    (fun o => gravityTerm b o + (if 0 < overlapOf b o then springTerm b o else 0)) bodies]
  congr 1
  apply List.map_congr_left
  intro o _
  rw [pairAccel_eq_claim_term]

/-- Claim C1: for every body array in which no two distinct bodies share a
position, the acceleration pass returns one vector per body in input order,
and the vector for body `i` is the sum, over every body at a different
position, of the gravity term plus the spring term gated on `overlap > 0`
(coincident pairs contribute nothing). -/
theorem accelerationField_matches_spec (bodies : List Body)
    (hp : bodies.Pairwise (fun a b => a.pos ≠ b.pos)) :
    (accelerationField bodies).length = bodies.length ∧
    ∀ (i : ℕ) (b : Body), bodies[i]? = some b →
      (accelerationField bodies)[i]? = some (accelOfClaim b bodies) := by
  constructor
  · simp [accelerationField]
  · intro i b hb
    unfold accelerationField
    rw [List.getElem?_map, hb]
    simp [accel_from_eq_claim]

/-- Witness for `accelerationField_matches_spec` on a concrete two-body input. -/
theorem accelerationField_matches_spec_witness :
    ([⟨⟨0,0,0⟩, 0, 1, 0⟩, ⟨⟨1,0,0⟩, 0, 1, 0⟩] : List Body).Pairwise
        (fun a b => a.pos ≠ b.pos) ∧
    (accelerationField [⟨⟨0,0,0⟩, 0, 1, 0⟩, ⟨⟨1,0,0⟩, 0, 1, 0⟩]).length = 2 := by
  have hp : ([⟨⟨0,0,0⟩, 0, 1, 0⟩, ⟨⟨1,0,0⟩, 0, 1, 0⟩] : List Body).Pairwise
      (fun a b => a.pos ≠ b.pos) := by
    constructor
    · intro b hb
      simp at hb
      subst hb
      intro hc
      have hx := congrArg Vec3.x hc
      norm_num at hx
    · simp
  exact ⟨hp, (accelerationField_matches_spec _ hp).1⟩

end ClaimOneProof

section Integrator

namespace Body

/-- Embedding of `Body::new_vel`: soft containment — outside the system
radius and moving outward, the velocity is scaled by `0.99`. -/
noncomputable def new_vel (b : Body) : Vec3 :=
  if SYSTEM_RADIUS ^ 2 < quadrance b.pos ∧ 0 < dot b.vel b.pos
  then (99 / 100 : ℝ) • b.vel else b.vel

/-- The `total_mass` accumulation in `Body::perform_step`. -/
noncomputable def totalMass (bodies : List Body) : ℝ :=
  (bodies.map (fun b => b.radius ^ 3)).sum

/-- The `total_momentum` accumulation in `Body::perform_step` (radius³-weighted
sum of the containment-corrected velocities). -/
noncomputable def totalMomentum (bodies : List Body) : Vec3 :=
  (bodies.map (fun b => b.radius ^ 3 • new_vel b)).sum

/-- Embedding of `Body::step_using_vel_accel`. -/
noncomputable def step_using_vel_accel (b : Body) (vel accel : Vec3) : Body :=
  { b with pos := b.pos + dtSecs • vel + (dtSecs * dtSecs / 2) • accel,
           vel := vel + dtSecs • accel }

end Body

/-- Three-way zip, the combinator implicit in
`bodies.iter_mut().zip(vels).zip(accels)`: it stops at the shortest input. -/
def zipWith3 {α β γ δ : Type} (f : α → β → γ → δ) : List α → List β → List γ → List δ
  | a :: la, b :: lb, c :: lc => f a b c :: zipWith3 f la lb lc
  | _, _, _ => []

namespace Body

/-- Embedding of `Body::perform_step`.  The source mutates the slice in place
through `iter_mut().zip(vels).zip(accels)`; Rust `zip` stops at the shorter
iterator, so the bodies beyond `accels.len()` are left untouched — there is
no assertion on the lengths.  The in-place mutation is modelled by returning
the new list (truncated zip followed by the untouched tail). -/
noncomputable def perform_step (bodies : List Body) (accels : List Vec3) : List Body :=
  zipWith3 step_using_vel_accel bodies
    (bodies.map (fun b => new_vel b - totalMomentum bodies / totalMass bodies)) accels
    ++ bodies.drop accels.length

end Body

/-- Modelled from the spec (§4.2, restated by claim C2): the corrected
velocity — containment damping by a factor `0.99 < 1` exactly when the
distance from the origin exceeds the system radius and the velocity points
outward, followed by subtraction of the mass-weighted average velocity. -/
noncomputable def correctedVelOfClaim (bodies : List Body) (b : Body) : Vec3 :=
  (if SYSTEM_RADIUS < magnitude b.pos ∧ 0 < dot b.vel b.pos
   then (99 / 100 : ℝ) • b.vel else b.vel)
  - Body.totalMomentum bodies / Body.totalMass bodies

theorem new_vel_eq_claim (b : Body) :
    Body.new_vel b
      = if SYSTEM_RADIUS < magnitude b.pos ∧ 0 < dot b.vel b.pos
        then (99 / 100 : ℝ) • b.vel else b.vel := by
  unfold Body.new_vel
  have h : (SYSTEM_RADIUS ^ 2 < quadrance b.pos) ↔ (SYSTEM_RADIUS < magnitude b.pos) := by
    unfold magnitude
    constructor
    · intro h1
      exact (Real.lt_sqrt (by norm_num [SYSTEM_RADIUS])).mpr h1
    · intro h1
      exact (Real.lt_sqrt (by norm_num [SYSTEM_RADIUS])).mp h1
  by_cases hc : SYSTEM_RADIUS ^ 2 < quadrance b.pos ∧ 0 < dot b.vel b.pos
  · rw [if_pos hc, if_pos ⟨h.mp hc.1, hc.2⟩]
  · rw [if_neg hc, if_neg (fun hk => hc ⟨h.mpr hk.1, hk.2⟩)]

theorem zipWith3_length {α β γ δ : Type} (f : α → β → γ → δ) :
    ∀ (la : List α) (lb : List β) (lc : List γ),
      (zipWith3 f la lb lc).length = min la.length (min lb.length lc.length) := by
  intro la
  induction la with
  | nil => intro lb lc; simp [zipWith3]
  | cons a ta ih =>
    intro lb lc
    cases lb with
    | nil => simp [zipWith3]
    | cons b tb =>
      cases lc with
      | nil => simp [zipWith3]
      | cons c tc =>
        simp only [zipWith3, List.length_cons, ih]
        omega

theorem zipWith3_getElem? {α β γ δ : Type} (f : α → β → γ → δ) :
    ∀ (la : List α) (lb : List β) (lc : List γ) (i : ℕ) (a : α) (b : β) (c : γ),
      la[i]? = some a → lb[i]? = some b → lc[i]? = some c →
      (zipWith3 f la lb lc)[i]? = some (f a b c) := by
  intro la
  induction la with
  | nil => intro lb lc i a b c ha; simp at ha
  | cons x ta ih =>
    intro lb lc i a b c ha hb hc
    cases lb with
    | nil => simp at hb
    | cons y tb =>
      cases lc with
      | nil => simp at hc
      | cons z tc =>
        cases i with
        | zero =>
          simp at ha hb hc
          simp [zipWith3, ha, hb, hc]
        | succ j =>
          simp at ha hb hc
          simpa [zipWith3] using ih tb tc j a b c ha hb hc

theorem perform_step_length (bodies : List Body) (accels : List Vec3) :
    (Body.perform_step bodies accels).length = bodies.length := by
  unfold Body.perform_step
  simp only [List.length_append, zipWith3_length, List.length_map, List.length_drop]
  omega

/-- Claim C2: with index-aligned equal-length inputs, the step rewrites each
body to `pos + v·dt + ½·a·dt²` and `v + a·dt`, where `v` is the corrected
velocity (containment damping by a factor `< 1`, then momentum correction);
radius and color are untouched. -/
theorem perform_step_matches_spec (bodies : List Body) (accels : List Vec3)
    (hlen : accels.length = bodies.length) :
    (Body.perform_step bodies accels).length = bodies.length ∧
    ∀ (i : ℕ) (b : Body) (a : Vec3), bodies[i]? = some b → accels[i]? = some a →
      (Body.perform_step bodies accels)[i]? = some
        { pos := b.pos + dtSecs • correctedVelOfClaim bodies b
            + (dtSecs * dtSecs / 2) • a,
          vel := correctedVelOfClaim bodies b + dtSecs • a,
          radius := b.radius, color := b.color } := by
  refine ⟨perform_step_length bodies accels, ?_⟩
  intro i b a hb ha
  unfold Body.perform_step
  have hi : i < bodies.length := by
    by_contra hk
    rw [List.getElem?_eq_none (by omega)] at hb
    exact Option.noConfusion hb
  have hvel : (bodies.map
      (fun b => Body.new_vel b - Body.totalMomentum bodies / Body.totalMass bodies))[i]?
      = some (Body.new_vel b - Body.totalMomentum bodies / Body.totalMass bodies) := by
    rw [List.getElem?_map, hb]; rfl
  have hz := zipWith3_getElem? Body.step_using_vel_accel bodies _ accels i _ _ _ hb hvel ha
  have hblen : i < (zipWith3 Body.step_using_vel_accel bodies
      (bodies.map (fun b => Body.new_vel b - Body.totalMomentum bodies / Body.totalMass bodies))
      accels).length := by
    rw [zipWith3_length]
    simp only [List.length_map]
    omega
  rw [List.getElem?_append, if_pos hblen, hz]
  congr 1
  unfold Body.step_using_vel_accel correctedVelOfClaim
  rw [new_vel_eq_claim]

/-- Concrete input for the witnesses and the C8 counterexample: a body at
rest at the origin. -/
def bodyAtOrigin : Body := { pos := ⟨0, 0, 0⟩, vel := ⟨0, 0, 0⟩, radius := 1, color := 0 }

/-- Concrete input: a body at rest at `(1,0,0)`. -/
def bodyAtUnitX : Body := { pos := ⟨1, 0, 0⟩, vel := ⟨0, 0, 0⟩, radius := 1, color := 0 }

theorem new_vel_bodyAtOrigin : Body.new_vel bodyAtOrigin = 0 := by
  unfold Body.new_vel bodyAtOrigin
  rw [if_neg]
  · rfl
  · intro h
    have := h.2
    simp [dot] at this

theorem new_vel_bodyAtUnitX : Body.new_vel bodyAtUnitX = 0 := by
  unfold Body.new_vel bodyAtUnitX
  rw [if_neg]
  · rfl
  · intro h
    have := h.2
    simp [dot] at this

/-- Witness for `perform_step_matches_spec` on a concrete one-body input. -/
theorem perform_step_matches_spec_witness :
    ([(0 : Vec3)] : List Vec3).length = [bodyAtOrigin].length ∧
    (Body.perform_step [bodyAtOrigin] [0])[0]? = some
      { pos := bodyAtOrigin.pos + dtSecs • correctedVelOfClaim [bodyAtOrigin] bodyAtOrigin
          + (dtSecs * dtSecs / 2) • 0,
        vel := correctedVelOfClaim [bodyAtOrigin] bodyAtOrigin + dtSecs • 0,
        radius := bodyAtOrigin.radius, color := bodyAtOrigin.color } := by
  have h := (perform_step_matches_spec [bodyAtOrigin] [0] (by simp)).2 0
    bodyAtOrigin 0 (by rfl) (by rfl)
  exact ⟨by simp, h⟩

end Integrator

section MismatchedLengths

/-- Counterexample to claim C8: `Body::perform_step` contains no assertion —
called with two bodies and a single acceleration it completes normally
(here returning both bodies unchanged) instead of halting. -/
theorem perform_step_no_assert_counterexample :
    ([bodyAtOrigin, bodyAtUnitX] : List Body).length ≠ ([(0 : Vec3)] : List Vec3).length ∧
    Body.perform_step [bodyAtOrigin, bodyAtUnitX] [0] = [bodyAtOrigin, bodyAtUnitX] := by
  refine ⟨by simp, ?_⟩
  have hm : Body.totalMomentum [bodyAtOrigin, bodyAtUnitX] = 0 := by
    unfold Body.totalMomentum
    simp [new_vel_bodyAtOrigin, new_vel_bodyAtUnitX]
  unfold Body.perform_step
  rw [hm]
  have hz : (0 : Vec3) / Body.totalMass [bodyAtOrigin, bodyAtUnitX] = 0 := by
    ext <;> simp
  rw [hz]
  simp only [List.map_cons, List.map_nil, sub_zero, zipWith3, List.length_cons,
    List.length_nil]
  rw [new_vel_bodyAtOrigin]
  unfold Body.step_using_vel_accel
  have hstep : bodyAtOrigin.pos + dtSecs • (0 : Vec3)
      + (dtSecs * dtSecs / 2) • (0 : Vec3) = bodyAtOrigin.pos := by
    simp
  rw [hstep]
  simp
  rfl

/-- Claim C8 amended: a mismatched acceleration array is silently accepted —
the in-place update truncates at the shorter length, every body at an index
at or past `accels.length` is returned unchanged, and no assertion fires. -/
theorem perform_step_mismatch_truncates (bodies : List Body) (accels : List Vec3) :
    (Body.perform_step bodies accels).length = bodies.length ∧
    ∀ (i : ℕ) (b : Body), accels.length ≤ i → bodies[i]? = some b →
      (Body.perform_step bodies accels)[i]? = some b := by
  refine ⟨perform_step_length bodies accels, ?_⟩
  intro i b hacc hb
  have hi : i < bodies.length := by
    by_contra hk
    rw [List.getElem?_eq_none (by omega)] at hb
    exact Option.noConfusion hb
  unfold Body.perform_step
  have hzl : (zipWith3 Body.step_using_vel_accel bodies
      (bodies.map (fun b => Body.new_vel b - Body.totalMomentum bodies / Body.totalMass bodies))
      accels).length = accels.length := by
    rw [zipWith3_length]
    simp only [List.length_map]
    omega
  have hnlt : ¬ i < (zipWith3 Body.step_using_vel_accel bodies
      (bodies.map (fun b => Body.new_vel b - Body.totalMomentum bodies / Body.totalMass bodies))
      accels).length := by
    rw [hzl]
    omega
  rw [List.getElem?_append, if_neg hnlt]
  rw [hzl, List.getElem?_drop]
  have harith : accels.length + (i - accels.length) = i := by omega
  rw [harith, hb]

/-- Witness for `perform_step_mismatch_truncates` at the concrete mismatched
input of the counterexample. -/
theorem perform_step_mismatch_truncates_witness :
    ([(0 : Vec3)] : List Vec3).length ≤ 1 ∧
    ([bodyAtOrigin, bodyAtUnitX] : List Body)[1]? = some bodyAtUnitX ∧
    (Body.perform_step [bodyAtOrigin, bodyAtUnitX] [0])[1]? = some bodyAtUnitX := by
  have h := (perform_step_mismatch_truncates [bodyAtOrigin, bodyAtUnitX] [0]).2 1
    bodyAtUnitX (by simp) (by rfl)
  exact ⟨by simp, by rfl, h⟩

end MismatchedLengths

section DivisorSafety

/-- Claim C9: with positive radii and pairwise-distinct positions, every
divisor appearing in `Body::accel_from` is nonzero on every processed pair —
the distance (direction normalisation), its square (gravity denominator) and
the cubed radius (spring denominator); division by zero is structurally
avoided by the identical-position skip. -/
theorem accel_divisors_nonzero (bodies : List Body)
    (hr : ∀ b ∈ bodies, 0 < b.radius)
    (hp : bodies.Pairwise (fun a b => a.pos ≠ b.pos)) :
    ∀ b ∈ bodies, ∀ o ∈ bodies, o.pos ≠ b.pos →
      magnitude (o.pos - b.pos) ≠ 0 ∧ (magnitude (o.pos - b.pos)) ^ 2 ≠ 0 ∧
      b.radius ^ 3 ≠ 0 := by
  intro b hb o _ hne
  have hd : 0 < magnitude (o.pos - b.pos) :=
    magnitude_pos _ (sub_ne_zero_of_pos_ne hne)
  exact ⟨ne_of_gt hd, pow_ne_zero 2 (ne_of_gt hd), pow_ne_zero 3 (ne_of_gt (hr b hb))⟩

/-- Witness for `accel_divisors_nonzero` on the concrete two-body input. -/
theorem accel_divisors_nonzero_witness :
    magnitude (bodyAtUnitX.pos - bodyAtOrigin.pos) ≠ 0 ∧
    (magnitude (bodyAtUnitX.pos - bodyAtOrigin.pos)) ^ 2 ≠ 0 ∧
    bodyAtOrigin.radius ^ 3 ≠ 0 := by
  have hp : ([bodyAtOrigin, bodyAtUnitX] : List Body).Pairwise
      (fun a b => a.pos ≠ b.pos) := by
    constructor
    · intro x hx
      simp at hx
      subst hx
      intro hc
      have hx1 := congrArg Vec3.x hc
      simp [bodyAtOrigin, bodyAtUnitX] at hx1
    · simp
  have hr : ∀ x ∈ ([bodyAtOrigin, bodyAtUnitX] : List Body), 0 < x.radius := by
    intro x hx
    simp at hx
    rcases hx with h | h <;> subst h <;> norm_num [bodyAtOrigin, bodyAtUnitX]
  have hne : bodyAtUnitX.pos ≠ bodyAtOrigin.pos := by
    intro hc
    have hx1 := congrArg Vec3.x hc
    simp [bodyAtOrigin, bodyAtUnitX] at hx1
  exact accel_divisors_nonzero [bodyAtOrigin, bodyAtUnitX] hr hp bodyAtOrigin
    (by simp) bodyAtUnitX (by simp) hne

end DivisorSafety

section MomentumCancellation

theorem map_sum_add {α M : Type} [AddCommMonoid M] (f g : α → M) (l : List α) :
    (l.map (fun a => f a + g a)).sum = (l.map f).sum + (l.map g).sum := by
  induction l with
  | nil => simp
  | cons x t ih =>
    simp only [List.map_cons, List.sum_cons, ih]
    abel

theorem map_sum_sub {α : Type} (f g : α → Vec3) (l : List α) :
    (l.map (fun a => f a - g a)).sum = (l.map f).sum - (l.map g).sum := by
  induction l with
  | nil => simp
  | cons x t ih =>
    simp only [List.map_cons, List.sum_cons, ih]
    abel

theorem smul_map_sum {α : Type} (r : ℝ) (f : α → Vec3) (l : List α) :
    r • (l.map f).sum = (l.map (fun a => r • f a)).sum := by
  induction l with
  | nil => simp
  | cons x t ih =>
    simp only [List.map_cons, List.sum_cons, smul_add, ih]

theorem sum_map_smul_const {α : Type} (l : List α) (m : α → ℝ) (C : Vec3) :
    (l.map (fun a => m a • C)).sum = ((l.map m).sum) • C := by
  induction l with
  | nil => simp
  | cons x t ih =>
    simp only [List.map_cons, List.sum_cons, ih, add_smul]

theorem zipWith3_map_map {α β γ δ : Type} (f : α → β → γ → δ) (u : α → β) (w : α → γ)
    (l : List α) :
    zipWith3 f l (l.map u) (l.map w) = l.map (fun a => f a (u a) (w a)) := by
  induction l with
  | nil => rfl
  | cons x t ih => simp only [List.map_cons, zipWith3, ih]

theorem double_sum_antisymm {α : Type} (g : α → α → Vec3) :
    ∀ (l : List α), (∀ a ∈ l, ∀ b ∈ l, g a b + g b a = 0) →
      (l.map (fun a => (l.map (g a)).sum)).sum = 0 := by
  intro l
  induction l with
  | nil => intro h; simp
  | cons x t ih =>
    intro h
    have hxx : g x x = 0 := by
      have h2 : g x x + g x x = 0 := h x (by simp) x (by simp)
      have h3 : (2 : ℝ) • g x x = 0 := by rw [two_smul]; exact h2
      have h4 : g x x = (2⁻¹ : ℝ) • ((2 : ℝ) • g x x) := by
        rw [smul_smul]; norm_num
      rw [h4, h3, smul_zero]
    simp only [List.map_cons, List.sum_cons, hxx, zero_add]
    have hcross : (t.map (g x)).sum + (t.map (fun a => g a x)).sum = 0 := by
      rw [← map_sum_add]
      apply List.sum_eq_zero
      intro v hv
      rcases List.mem_map.mp hv with ⟨a, ha, hav⟩
      rw [← hav]
      exact h x (by simp) a (by simp [ha])
    have htail : (t.map (fun a => (t.map (g a)).sum)).sum = 0 :=
      ih (fun a ha b hb => h a (by simp [ha]) b (by simp [hb]))
    have hsplit : t.map (fun a => g a x + (t.map (g a)).sum)
        = t.map (fun a => g a x + (t.map (g a)).sum) := rfl
    calc (t.map (g x)).sum + (t.map (fun a => (g a x :: t.map (g a)).sum)).sum
        = (t.map (g x)).sum
          + (t.map (fun a => g a x + (t.map (g a)).sum)).sum := by
          simp only [List.sum_cons]
      _ = (t.map (g x)).sum + ((t.map (fun a => g a x)).sum
          + (t.map (fun a => (t.map (g a)).sum)).sum) := by
          rw [map_sum_add]
      _ = ((t.map (g x)).sum + (t.map (fun a => g a x)).sum)
          + (t.map (fun a => (t.map (g a)).sum)).sum := by abel
      _ = 0 := by rw [hcross, htail, zero_add]

theorem totalMass_pos (bodies : List Body) (hne : bodies ≠ [])
    (hr : ∀ b ∈ bodies, 0 < b.radius) : 0 < Body.totalMass bodies := by
  unfold Body.totalMass
  cases bodies with
  | nil => exact absurd rfl hne
  | cons x t =>
    simp only [List.map_cons, List.sum_cons]
    have hx : 0 < x.radius ^ 3 := pow_pos (hr x (by simp)) 3
    have ht : 0 ≤ (t.map (fun b => b.radius ^ 3)).sum := by
      apply List.sum_nonneg
      intro v hv
      rcases List.mem_map.mp hv with ⟨a, ha, hav⟩
      rw [← hav]
      exact le_of_lt (pow_pos (hr a (by simp [ha])) 3)
    linarith

theorem pairAccel_of_ne (b o : Body) (h : o.pos ≠ b.pos) :
    Body.pairAccel b o
      = (if 0 < b.radius + GAP + o.radius - magnitude (o.pos - b.pos)
            - dot (o.vel - b.vel) ((o.pos - b.pos) / magnitude (o.pos - b.pos))
                * dtSecs * (1 + DAMPING) / 2
         then (-STIFFNESS * (b.radius + GAP + o.radius - magnitude (o.pos - b.pos)
            - dot (o.vel - b.vel) ((o.pos - b.pos) / magnitude (o.pos - b.pos))
                * dtSecs * (1 + DAMPING) / 2) / b.radius ^ 3)
              • ((o.pos - b.pos) / magnitude (o.pos - b.pos))
         else 0)
        + (GRAVITY_CONSTANT * o.radius ^ 3 / (magnitude (o.pos - b.pos)) ^ 2)
            • ((o.pos - b.pos) / magnitude (o.pos - b.pos)) := by
  unfold Body.pairAccel
  rw [if_neg h]

theorem pairAccel_antisymm (b o : Body) (hb : b.radius ≠ 0) (ho : o.radius ≠ 0) :
    b.radius ^ 3 • Body.pairAccel b o + o.radius ^ 3 • Body.pairAccel o b = 0 := by
  by_cases hpos : o.pos = b.pos
  · simp [Body.pairAccel, hpos]
  · have hpos' : b.pos ≠ o.pos := fun hc => hpos hc.symm
    have hd : magnitude (o.pos - b.pos) ≠ 0 :=
      ne_of_gt (magnitude_pos _ (sub_ne_zero_of_pos_ne hpos))
    rw [pairAccel_of_ne b o hpos, pairAccel_of_ne o b hpos']
    rw [magnitude_sub_comm b.pos o.pos]
    have hu : (b.pos - o.pos) / magnitude (o.pos - b.pos)
        = -((o.pos - b.pos) / magnitude (o.pos - b.pos)) := by
      ext <;> simp <;> ring
    rw [hu]
    have hdot : dot (b.vel - o.vel) (-((o.pos - b.pos) / magnitude (o.pos - b.pos)))
        = dot (o.vel - b.vel) ((o.pos - b.pos) / magnitude (o.pos - b.pos)) := by
      unfold dot
      simp
      ring
    rw [hdot]
    have hov : o.radius + GAP + b.radius - magnitude (o.pos - b.pos)
        - dot (o.vel - b.vel) ((o.pos - b.pos) / magnitude (o.pos - b.pos))
            * dtSecs * (1 + DAMPING) / 2
        = b.radius + GAP + o.radius - magnitude (o.pos - b.pos)
        - dot (o.vel - b.vel) ((o.pos - b.pos) / magnitude (o.pos - b.pos))
            * dtSecs * (1 + DAMPING) / 2 := by ring
    rw [hov]
    have hb3 : b.radius ^ 3 ≠ 0 := pow_ne_zero 3 hb
    have ho3 : o.radius ^ 3 ≠ 0 := pow_ne_zero 3 ho
    by_cases hovpos : 0 < b.radius + GAP + o.radius - magnitude (o.pos - b.pos)
        - dot (o.vel - b.vel) ((o.pos - b.pos) / magnitude (o.pos - b.pos))
            * dtSecs * (1 + DAMPING) / 2
    · rw [if_pos hovpos, if_pos hovpos]
      ext <;> simp <;> field_simp <;> ring
    · rw [if_neg hovpos, if_neg hovpos]
      ext <;> simp <;> field_simp <;> ring

/-- Claim C3: with a non-empty body array of strictly positive radii, the
radius³-weighted sum of the velocities after momentum correction and one
integrator step — driven by the acceleration field of the same array — is
exactly zero in the exact arithmetic of this model. -/
theorem momentum_cancellation (bodies : List Body) (hne : bodies ≠ [])
    (hr : ∀ b ∈ bodies, 0 < b.radius) :
    ((Body.perform_step bodies (accelerationField bodies)).map
      (fun b => b.radius ^ 3 • b.vel)).sum = 0 := by
  have hM : Body.totalMass bodies ≠ 0 := ne_of_gt (totalMass_pos bodies hne hr)
  have hres : Body.perform_step bodies (accelerationField bodies)
      = bodies.map (fun b => Body.step_using_vel_accel b
          (Body.new_vel b - Body.totalMomentum bodies / Body.totalMass bodies)
          (Body.accel_from b bodies)) := by
    unfold Body.perform_step accelerationField
    rw [zipWith3_map_map]
    simp [List.drop_length]
  rw [hres, List.map_map]
  have hfun : ((fun b : Body => b.radius ^ 3 • b.vel) ∘ (fun b => Body.step_using_vel_accel b
        (Body.new_vel b - Body.totalMomentum bodies / Body.totalMass bodies)
        (Body.accel_from b bodies)))
      = fun b => b.radius ^ 3 •
          (Body.new_vel b - Body.totalMomentum bodies / Body.totalMass bodies
            + dtSecs • Body.accel_from b bodies) := by
    funext b
    rfl
  rw [hfun]
  have h1 : (bodies.map (fun b => b.radius ^ 3 •
        (Body.new_vel b - Body.totalMomentum bodies / Body.totalMass bodies
          + dtSecs • Body.accel_from b bodies))).sum
      = (bodies.map (fun b => b.radius ^ 3 •
          (Body.new_vel b - Body.totalMomentum bodies / Body.totalMass bodies))).sum
        + (bodies.map (fun b => b.radius ^ 3 •
            (dtSecs • Body.accel_from b bodies))).sum := by
    rw [← map_sum_add]
    congr 1
    apply List.map_congr_left
    intro b _
    rw [smul_add]
  rw [h1]
  have h2 : (bodies.map (fun b => b.radius ^ 3 •
      (Body.new_vel b - Body.totalMomentum bodies / Body.totalMass bodies))).sum = 0 := by
    have hs : (bodies.map (fun b => b.radius ^ 3 •
        (Body.new_vel b - Body.totalMomentum bodies / Body.totalMass bodies))).sum
        = (bodies.map (fun b => b.radius ^ 3 • Body.new_vel b)).sum
          - (bodies.map (fun b => b.radius ^ 3 •
              (Body.totalMomentum bodies / Body.totalMass bodies))).sum := by
      rw [← map_sum_sub]
      congr 1
      apply List.map_congr_left
      intro b _
      rw [smul_sub]
    rw [hs, sum_map_smul_const]
    have hmass : (bodies.map (fun b => b.radius ^ 3)).sum = Body.totalMass bodies := rfl
    have hmom : (bodies.map (fun b => b.radius ^ 3 • Body.new_vel b)).sum
        = Body.totalMomentum bodies := rfl
    rw [hmass, hmom]
    rw [div_eq_inv_smul, smul_smul]
    have hcancel : Body.totalMass bodies * (1 / Body.totalMass bodies) = 1 := by
      field_simp
    rw [hcancel, one_smul, sub_self]
  have h3 : (bodies.map (fun b => b.radius ^ 3 •
      (dtSecs • Body.accel_from b bodies))).sum = 0 := by
    have hcomm : bodies.map (fun b => b.radius ^ 3 • (dtSecs • Body.accel_from b bodies))
        = bodies.map (fun b => dtSecs • (b.radius ^ 3 • Body.accel_from b bodies)) := by
      apply List.map_congr_left
      intro b _
      rw [smul_smul, smul_smul, mul_comm]
    rw [hcomm, ← smul_map_sum]
    have hinner : (bodies.map (fun b => b.radius ^ 3 • Body.accel_from b bodies)).sum = 0 := by
      have hrw : bodies.map (fun b => b.radius ^ 3 • Body.accel_from b bodies)
          = bodies.map (fun b =>
              (bodies.map (fun o => b.radius ^ 3 • Body.pairAccel b o)).sum) := by
        apply List.map_congr_left
        intro b _
        unfold Body.accel_from
        rw [foldl_add_eq_sum (Body.pairAccel b) bodies 0, zero_add, smul_map_sum]
      rw [hrw]
      exact double_sum_antisymm (fun a b => a.radius ^ 3 • Body.pairAccel a b) bodies
        (fun a ha b hb => pairAccel_antisymm a b (ne_of_gt (hr a ha)) (ne_of_gt (hr b hb)))
    rw [hinner, smul_zero]
  rw [h2, h3, add_zero]

/-- Witness for `momentum_cancellation` on a concrete one-body input. -/
theorem momentum_cancellation_witness :
    ((Body.perform_step [bodyAtOrigin] (accelerationField [bodyAtOrigin])).map
      (fun b => b.radius ^ 3 • b.vel)).sum = 0 :=
  momentum_cancellation [bodyAtOrigin] (by simp)
    (by
      intro b hb
      simp at hb
      subst hb
      norm_num [bodyAtOrigin])

end MomentumCancellation

section PhysicsClock

/-- Constant `PHYSICS_DELTA_TIME` (1 ms) in nanoseconds, the resolution of
Rust's `Duration`. -/
def PHYSICS_DELTA_TIME : ℕ := 1000000

/-- Constant `PHYSICS_MAX_BEHIND_TIME` (1 s) in nanoseconds. -/
def PHYSICS_MAX_BEHIND_TIME : ℕ := 1000000000

/-- Embedding of `Instant::checked_duration_since`: `none` when the clock is
ahead of the target. -/
def checkedDurationSince (a b : ℕ) : Option ℕ := if b ≤ a then some (a - b) else none

/-- The `Option<Duration>` order used by `lag < Some(..)` and `lag > Some(..)`
in `Physics::advance_to` (`None` sorts below every `Some`). -/
def optDurLt : Option ℕ → Option ℕ → Bool
  | none, none => false
  | none, some _ => true
  | some _, none => false
  | some a, some b => a < b

/-- Embedding of the loop of `Physics::advance_to` from
`crates/physics/src/lib.rs`, on `Instant`s measured in nanoseconds.  The
first argument is loop fuel: the source loop is unbounded, and `none` models
running out of fuel, never reached in the claims below.  Returns the final
bodies, the final physics clock, the number of ticks performed and the
number of catch-up anomalies reported through `log::error!`.  The catch-up
branch sets the clock to `target - PHYSICS_DELTA_TIME` before the tick,
exactly as the source. -/
noncomputable def advance_to : ℕ → List Body → ℕ → ℕ → Option ((List Body × ℕ) × ℕ × ℕ)
  | 0, _, _, _ => none
  | fuel + 1, bodies, timestamp, target =>
    if optDurLt (checkedDurationSince target timestamp) (some PHYSICS_DELTA_TIME)
    then some ((bodies, timestamp), 0, 0)
    else
      let ts1 := if optDurLt (some PHYSICS_MAX_BEHIND_TIME)
          (checkedDurationSince target timestamp)
        then target - PHYSICS_DELTA_TIME else timestamp
      let jumped : ℕ := if optDurLt (some PHYSICS_MAX_BEHIND_TIME)
          (checkedDurationSince target timestamp) then 1 else 0
      (advance_to fuel (Body.perform_step bodies (accelerationField bodies))
        (ts1 + PHYSICS_DELTA_TIME) target).map
        (fun r => (r.1, r.2.1 + 1, r.2.2 + jumped))

/-- Claim C7: whenever the target is more than the max-behind threshold ahead
of the physics clock, `advance_to` jumps the clock to `target − DT` exactly
once, reports exactly one anomaly, performs exactly one tick, and stops with
the clock exactly on the target — not one tick attempt per elapsed `DT`. -/
theorem advance_to_catch_up (fuel : ℕ) (bodies : List Body) (ts target : ℕ)
    (hf : 2 ≤ fuel) (h : PHYSICS_MAX_BEHIND_TIME < target - ts) :
    advance_to fuel bodies ts target
      = some ((Body.perform_step bodies (accelerationField bodies), target), 1, 1) := by
  have hts : ts < target := by
    unfold PHYSICS_MAX_BEHIND_TIME at h
    omega
  obtain ⟨k, rfl⟩ : ∃ k, fuel = k + 2 := ⟨fuel - 2, by omega⟩
  have hc1 : optDurLt (checkedDurationSince target ts) (some PHYSICS_DELTA_TIME) = false := by
    unfold optDurLt checkedDurationSince PHYSICS_DELTA_TIME
    rw [if_pos (le_of_lt hts)]
    simp only [decide_eq_false_iff_not]
    unfold PHYSICS_MAX_BEHIND_TIME at h
    omega
  have hc2 : optDurLt (some PHYSICS_MAX_BEHIND_TIME)
      (checkedDurationSince target ts) = true := by
    unfold optDurLt checkedDurationSince
    rw [if_pos (le_of_lt hts)]
    simp only [decide_eq_true_eq]
    omega
  have hdt : target - PHYSICS_DELTA_TIME + PHYSICS_DELTA_TIME = target := by
    unfold PHYSICS_DELTA_TIME
    unfold PHYSICS_MAX_BEHIND_TIME at h
    omega
  have hcond : optDurLt (checkedDurationSince target target)
      (some PHYSICS_DELTA_TIME) = true := by
    unfold optDurLt checkedDurationSince PHYSICS_DELTA_TIME
    rw [if_pos (le_refl target)]
    simp
  show advance_to (k + 1 + 1) bodies ts target
      = some ((Body.perform_step bodies (accelerationField bodies), target), 1, 1)
  rw [advance_to, hc1, hc2]
  rw [if_pos (rfl : (true : Bool) = true), if_pos (rfl : (true : Bool) = true)]
  rw [if_neg Bool.false_ne_true]
  dsimp only
  rw [hdt]
  rw [advance_to, hcond]
  rfl

/-- Witness for `advance_to_catch_up`: a clock at `0` asked to advance to
`now + 5000 ms` jumps once, logs once, and ticks once. -/
theorem advance_to_catch_up_witness :
    (2 ≤ 2 ∧ PHYSICS_MAX_BEHIND_TIME < 5000000000 - 0) ∧
    advance_to 2 [] 0 5000000000
      = some ((Body.perform_step [] (accelerationField []), 5000000000), 1, 1) := by
  have h : PHYSICS_MAX_BEHIND_TIME < 5000000000 - 0 := by
    unfold PHYSICS_MAX_BEHIND_TIME
    omega
  exact ⟨⟨le_refl 2, h⟩, advance_to_catch_up 2 [] 0 5000000000 (le_refl 2) h⟩

end PhysicsClock

section SphereTree

/-- Embedding of `cgmath::Vector4<f32>`. -/
structure Vec4 where
  x : ℝ
  y : ℝ
  z : ℝ
  w : ℝ

/-- Embedding of `cgmath::Matrix4<f32>` by its four columns. -/
structure Mat4 where
  c0 : Vec4
  c1 : Vec4
  c2 : Vec4
  c3 : Vec4

/-- The matrix-vector product `m * v` of cgmath (columns weighted by the
vector components). -/
noncomputable def Mat4.mulVec (m : Mat4) (v : Vec4) : Vec4 :=
  ⟨m.c0.x * v.x + m.c1.x * v.y + m.c2.x * v.z + m.c3.x * v.w,
   m.c0.y * v.x + m.c1.y * v.y + m.c2.y * v.z + m.c3.y * v.w,
   m.c0.z * v.x + m.c1.z * v.y + m.c2.z * v.z + m.c3.z * v.w,
   m.c0.w * v.x + m.c1.w * v.y + m.c2.w * v.z + m.c3.w * v.w⟩

/-- The identity transform, used as a concrete `world_to_camera` argument. -/
noncomputable def idMat4 : Mat4 :=
  ⟨⟨1, 0, 0, 0⟩, ⟨0, 1, 0, 0⟩, ⟨0, 0, 1, 0⟩, ⟨0, 0, 0, 1⟩⟩

/-- Embedding of the `Sphere` struct from `src/spheretree.rs` (`_padding` is
pure GPU layout and is omitted; `color : u32` as a natural number). -/
structure Sphere where
  pos : Vec3
  radius : ℝ
  left : ℤ
  right : ℤ
  color : ℕ

/-- Embedding of `Sphere::leaf`: the body position is pushed through the
world-to-camera transform with a homogeneous divide; children are the
sentinel `-1`. -/
noncomputable def Sphere.leaf (b : Body) (m : Mat4) : Sphere :=
  let hom := m.mulVec ⟨b.pos.x, b.pos.y, b.pos.z, 1⟩
  { pos := ⟨hom.x / hom.w, hom.y / hom.w, hom.z / hom.w⟩,
    radius := b.radius,
    left := -1,
    right := -1,
    color := b.color }

/-- Embedding of the geometry of `Sphere::branch` on the two looked-up child
spheres (the `unwrap`s of the lookups are modelled at the merge step):
midpoint of the two outward tangent points, radius half the sum of the
center distance and both radii, children the two cluster indices. -/
noncomputable def Sphere.branch (a b : Sphere) (ai bi : ℕ) : Sphere :=
  let relPosNorm := (b.pos - a.pos) / magnitude (b.pos - a.pos)
  let distance := magnitude (b.pos - a.pos)
  { pos := ((a.pos - a.radius • relPosNorm) + (b.pos + b.radius • relPosNorm)) / (2 : ℝ),
    radius := (distance + a.radius + b.radius) / 2,
    left := (ai : ℤ),
    right := (bi : ℤ),
    color := 0 }

/-- Embedding of `Sphere::placeholder`. -/
noncomputable def Sphere.placeholder : Sphere :=
  { pos := 0, radius := 0, left := 0, right := 0, color := 0 }

/-- Embedding of the join cost `measure` from `src/spheretree.rs`. -/
noncomputable def measure (a b : Sphere) : ℝ :=
  ((magnitude (a.pos - b.pos) + a.radius + b.radius) / 2) ^ 3
    - a.radius ^ 3 - b.radius ^ 3

/-- State of the `make_sphere_tree` loop: the growing cluster vector
(`none` = cluster already merged away, mirroring `Option::take`), the output
tree, the chain stack (head = top), and the `num_spheres` counter. -/
structure BuildState where
  spheres : List (Option Sphere)
  tree : List Sphere
  chain : List ℕ
  num : ℕ

/-- The `spheres[i].is_some()` test. -/
def activeAt (spheres : List (Option Sphere)) (i : ℕ) : Bool :=
  match spheres[i]? with
  | some (some _) => true
  | _ => false

/-- The seed search `spheres.iter().enumerate().rev().find(is_some)`: the
highest active index. -/
def lastActive (spheres : List (Option Sphere)) : Option ℕ :=
  (List.range spheres.length).reverse.find? (fun i => activeAt spheres i)

/-- The inner selection loop of `make_sphere_tree`: pop exhausted chain
entries; on an empty chain, seed it with the last active sphere (a failed
seed `unwrap` is `none`).  Returns the chain with the selected `current` on
top. -/
def selectCurrent (spheres : List (Option Sphere)) : List ℕ → Option (List ℕ)
  | [] => (lastActive spheres).map (fun i => [i])
  | c :: rest => if activeAt spheres c then some (c :: rest) else selectCurrent spheres rest

/-- The candidate list of the nearest-neighbor search for `current`: every
other active index paired with its join cost, in index order. -/
noncomputable def candidatesFor (spheres : List (Option Sphere)) (cur : Sphere)
    (current : ℕ) : List (ℝ × ℕ) :=
  (List.range spheres.length).filterMap (fun i =>
    if i = current then none
    else match spheres[i]? with
         | some (some s) => some (measure cur s, i)
         | _ => none)

/-- The lexicographic `(cost, index)` order of the tuples compared by
`min_by(partial_cmp)` in the nearest-neighbor search. -/
def lexLt (a b : ℝ × ℕ) : Prop := a.1 < b.1 ∨ (a.1 = b.1 ∧ a.2 < b.2)

open Classical in
/-- Rust's `Iterator::min_by` on the `(cost, index)` tuples: the fold keeps
the earlier element unless a strictly lexicographically smaller one appears,
so equal costs resolve to the lowest index.  `none` models the `unwrap`
panic on an empty candidate list. -/
noncomputable def minByLex : List (ℝ × ℕ) → Option (ℝ × ℕ)
  | [] => none
  | c :: rest => some (rest.foldl (fun best x => if lexLt x best then x else best) c)

/-- The nearest-neighbor search of `make_sphere_tree` for the chain top. -/
noncomputable def nearestNeighbor (spheres : List (Option Sphere)) (current : ℕ) :
    Option (ℝ × ℕ) :=
  match spheres[current]? with
  | some (some cur) => minByLex (candidatesFor spheres cur current)
  | _ => none

/-- The merge arm of the loop: push the branch node built from the two
chain-top clusters (`spheres.push`), move both cluster values into the tree
(`tree[i] = spheres[i].take().unwrap()`), pop the pair off the chain and
decrement `num_spheres`. -/
noncomputable def mergeStep (st : BuildState) (current last : ℕ) (rest : List ℕ) :
    Option BuildState :=
  match st.spheres[current]?, st.spheres[last]? with
  | some (some sc), some (some sl) =>
    some { spheres := ((st.spheres ++ [some (Sphere.branch sc sl current last)]).set
             current none).set last none,
           tree := (st.tree.set current sc).set last sl,
           chain := rest,
           num := st.num - 1 }
  | _, _ => none

/-- One iteration of the `while num_spheres > 1` loop body: select `current`,
find its nearest neighbor, and either merge a mutually-nearest pair or push
the neighbor onto the chain. -/
noncomputable def buildStep (st : BuildState) : Option BuildState :=
  match selectCurrent st.spheres st.chain with
  | none => none
  | some [] => none
  | some (current :: rest) =>
    match nearestNeighbor st.spheres current with
    | none => none
    | some (_, nn) =>
      match rest with
      | last :: rest2 =>
        if nn = last then mergeStep st current last rest2
        else some { st with chain := nn :: current :: rest }
      | [] => some { st with chain := nn :: current :: rest }

/-- The `while num_spheres > 1` loop, with fuel; `none` models running out
of fuel. -/
noncomputable def buildLoop : ℕ → BuildState → Option BuildState
  | 0, st => if st.num ≤ 1 then some st else none
  | fuel + 1, st => if st.num ≤ 1 then some st else (buildStep st).bind (buildLoop fuel)

/-- Embedding of `make_sphere_tree` from `src/spheretree.rs`.  `none` models
a panic — on the empty input the `2 * spheres.len() - 1` usize computation
underflows before anything else runs — or a failed `unwrap`, or running out
of loop fuel. -/
noncomputable def make_sphere_tree (fuel : ℕ) (bodies : List Body) (worldToCamera : Mat4) :
    Option (List Sphere) :=
  if bodies.length = 0 then none
  else
    (buildLoop fuel
        { spheres := bodies.map (fun b => some (Sphere.leaf b worldToCamera)),
          tree := List.replicate (2 * bodies.length - 1) Sphere.placeholder,
          chain := [],
          num := bodies.length }).bind (fun st =>
      match st.spheres.getLast? with
      | some (some root) => some (st.tree.set (2 * bodies.length - 1 - 1) root)
      | _ => none)

/-- A child reference from node value `s` to tree slot `k`. -/
def refsTo (s : Sphere) (k : ℕ) : Prop := s.left = (k : ℤ) ∨ s.right = (k : ℤ)

theorem buildLoop_of_le_one (fuel : ℕ) (st : BuildState) (h : st.num ≤ 1) :
    buildLoop fuel st = some st := by
  cases fuel with
  | zero => unfold buildLoop; rw [if_pos h]
  | succ k => unfold buildLoop; rw [if_pos h]

theorem make_sphere_tree_nil_eq (fuel : ℕ) (m : Mat4) :
    make_sphere_tree fuel [] m = none := by
  unfold make_sphere_tree
  simp

theorem make_sphere_tree_singleton_eq (fuel : ℕ) (m : Mat4) (b : Body) :
    make_sphere_tree fuel [b] m = some [Sphere.leaf b m] := by
  unfold make_sphere_tree
  rw [if_neg (by simp)]
  rw [buildLoop_of_le_one fuel _ (by simp)]
  simp [List.getLast?]

/-- Claim C10: `make_sphere_tree` panics on the empty input (the usize
computation `2 * 0 - 1` underflows, modelled as `none`), so every structural
guarantee implicitly assumes N ≥ 1; on a single body it returns the
single-leaf array, the leaf itself serving as root. -/
theorem make_sphere_tree_empty_and_singleton (fuel : ℕ) (m : Mat4) (b : Body) :
    make_sphere_tree fuel [] m = none ∧
    make_sphere_tree fuel [b] m = some [Sphere.leaf b m] :=
  ⟨make_sphere_tree_nil_eq fuel m, make_sphere_tree_singleton_eq fuel m b⟩

/-- Counterexample to claim C4 as stated: for N = 1 the output has length
2·1−1 = 1, so the position 2·1−1 = 1 named by the claim for the root lies
outside the array — the never-referenced root occupies the LAST slot,
index 2N−2 = 0. -/
theorem root_index_counterexample :
    make_sphere_tree 1 [bodyAtOrigin] idMat4
      = some [Sphere.leaf bodyAtOrigin idMat4] ∧
    [Sphere.leaf bodyAtOrigin idMat4].length = 2 * 1 - 1 ∧
    ¬ (2 * 1 - 1 < [Sphere.leaf bodyAtOrigin idMat4].length) :=
  ⟨make_sphere_tree_singleton_eq 1 idMat4 bodyAtOrigin, by simp, by simp⟩

end SphereTree

section Containment

theorem magnitude_unit (v : Vec3) (hv : magnitude v ≠ 0) :
    magnitude (v / magnitude v) = 1 := by
  rw [div_eq_inv_smul, magnitude_smul, one_div, abs_of_nonneg
    (inv_nonneg.mpr (magnitude_nonneg v))]
  field_simp

theorem branch_pos_sub_left (a b : Sphere) (ai bi : ℕ)
    (hd : magnitude (b.pos - a.pos) ≠ 0) :
    (Sphere.branch a b ai bi).pos - a.pos
      = ((magnitude (b.pos - a.pos) + b.radius - a.radius) / 2)
          • ((b.pos - a.pos) / magnitude (b.pos - a.pos)) := by
  unfold Sphere.branch
  ext <;> simp <;> field_simp <;> ring

theorem branch_pos_sub_right (a b : Sphere) (ai bi : ℕ)
    (hd : magnitude (b.pos - a.pos) ≠ 0) :
    (Sphere.branch a b ai bi).pos - b.pos
      = ((b.radius - a.radius - magnitude (b.pos - a.pos)) / 2)
          • ((b.pos - a.pos) / magnitude (b.pos - a.pos)) := by
  unfold Sphere.branch
  ext <;> simp <;> field_simp <;> ring

theorem branch_radius_eq (a b : Sphere) (ai bi : ℕ) :
    (Sphere.branch a b ai bi).radius
      = (magnitude (b.pos - a.pos) + a.radius + b.radius) / 2 := rfl

/-- Claim C5 amended: an internal node built by `Sphere::branch` contains
both child spheres whenever the child centers are distinct and their
distance is at least the difference of the radii (neither child sphere
strictly surrounds the other); the containment bound then holds (with
equality).  Without that proviso it fails, see the counterexample. -/
theorem branch_containment (a b : Sphere) (ai bi : ℕ)
    (hd : magnitude (b.pos - a.pos) ≠ 0)
    (h1 : a.radius - b.radius ≤ magnitude (b.pos - a.pos))
    (h2 : b.radius - a.radius ≤ magnitude (b.pos - a.pos)) :
    magnitude ((Sphere.branch a b ai bi).pos - a.pos) + a.radius
      ≤ (Sphere.branch a b ai bi).radius ∧
    magnitude ((Sphere.branch a b ai bi).pos - b.pos) + b.radius
      ≤ (Sphere.branch a b ai bi).radius := by
  have hu := magnitude_unit (b.pos - a.pos) hd
  constructor
  · rw [branch_pos_sub_left a b ai bi hd, magnitude_smul, hu, mul_one,
      branch_radius_eq, abs_of_nonneg (by linarith :
        (0:ℝ) ≤ (magnitude (b.pos - a.pos) + b.radius - a.radius) / 2)]
    linarith
  · rw [branch_pos_sub_right a b ai bi hd, magnitude_smul, hu, mul_one,
      branch_radius_eq, abs_of_nonpos (by linarith :
        (b.radius - a.radius - magnitude (b.pos - a.pos)) / 2 ≤ (0:ℝ))]
    linarith

/-- Concrete input for the containment counterexample: a radius-10 sphere at
the origin whose interior strictly contains the unit sphere at distance 1. -/
def bigBody : Body := { pos := ⟨0, 0, 0⟩, vel := ⟨0, 0, 0⟩, radius := 10, color := 0 }

/-- The small contained body of the containment counterexample. -/
def smallBody : Body := { pos := ⟨1, 0, 0⟩, vel := ⟨0, 0, 0⟩, radius := 1, color := 0 }

theorem leaf_bigBody_eq : Sphere.leaf bigBody idMat4
    = { pos := ⟨0, 0, 0⟩, radius := 10, left := -1, right := -1, color := 0 } := by
  unfold Sphere.leaf idMat4 Mat4.mulVec bigBody
  norm_num

theorem leaf_smallBody_eq : Sphere.leaf smallBody idMat4
    = { pos := ⟨1, 0, 0⟩, radius := 1, left := -1, right := -1, color := 0 } := by
  unfold Sphere.leaf idMat4 Mat4.mulVec smallBody
  norm_num

theorem magnitude_unitX : magnitude (⟨1, 0, 0⟩ : Vec3) = 1 := by
  unfold magnitude quadrance dot
  norm_num

theorem branch_big_small_eq :
    Sphere.branch (Sphere.leaf bigBody idMat4) (Sphere.leaf smallBody idMat4) 0 1
      = { pos := ⟨-4, 0, 0⟩, radius := 6, left := 0, right := 1, color := 0 } := by
  rw [leaf_bigBody_eq, leaf_smallBody_eq]
  unfold Sphere.branch
  have hsub : ((⟨1, 0, 0⟩ : Vec3) - ⟨0, 0, 0⟩) = ⟨1, 0, 0⟩ := by
    ext <;> simp
  norm_num [hsub, magnitude_unitX]
  ext <;> norm_num

end Containment

section TwoBodyRun

theorem make_sphere_tree_two_eq (b0 b1 : Body) (m : Mat4) :
    make_sphere_tree 4 [b0, b1] m
      = some [Sphere.leaf b0 m, Sphere.leaf b1 m,
              Sphere.branch (Sphere.leaf b0 m) (Sphere.leaf b1 m) 0 1] := rfl

/-- Counterexample to claim C5 as stated: running the builder on the two
concrete bodies (radius 10 at the origin, radius 1 at distance 1) produces a
root node of radius 6 at `(-4,0,0)` whose distance-plus-radius bound to its
first child is `4 + 10 = 14 > 6` — the internal node does not contain the
child sphere. -/
theorem branch_containment_counterexample :
    make_sphere_tree 4 [bigBody, smallBody] idMat4
      = some [Sphere.leaf bigBody idMat4, Sphere.leaf smallBody idMat4,
              Sphere.branch (Sphere.leaf bigBody idMat4) (Sphere.leaf smallBody idMat4) 0 1] ∧
    ¬ (magnitude ((Sphere.branch (Sphere.leaf bigBody idMat4)
            (Sphere.leaf smallBody idMat4) 0 1).pos - (Sphere.leaf bigBody idMat4).pos)
          + (Sphere.leaf bigBody idMat4).radius
        ≤ (Sphere.branch (Sphere.leaf bigBody idMat4)
            (Sphere.leaf smallBody idMat4) 0 1).radius) := by
  refine ⟨make_sphere_tree_two_eq bigBody smallBody idMat4, ?_⟩
  rw [branch_big_small_eq, leaf_bigBody_eq]
  have hm : magnitude ((⟨-4, 0, 0⟩ : Vec3) - ⟨0, 0, 0⟩) = 4 := by
    have hsub : ((⟨-4, 0, 0⟩ : Vec3) - ⟨0, 0, 0⟩) = ⟨-4, 0, 0⟩ := by
      ext <;> simp
    rw [hsub]
    unfold magnitude quadrance dot
    rw [show ((-4 : ℝ) * -4 + 0 * 0 + 0 * 0) = 4 ^ 2 by norm_num]
    exact Real.sqrt_sq (by norm_num)
  show ¬ (magnitude ((⟨-4, 0, 0⟩ : Vec3) - ⟨0, 0, 0⟩) + (10 : ℝ) ≤ 6)
  rw [hm]
  norm_num

/-- Witness for `branch_containment` on two unit spheres three apart. -/
theorem branch_containment_witness :
    (magnitude ((⟨3, 0, 0⟩ : Vec3) - ⟨0, 0, 0⟩) ≠ 0 ∧
      (1 : ℝ) - 1 ≤ magnitude ((⟨3, 0, 0⟩ : Vec3) - ⟨0, 0, 0⟩)) ∧
    magnitude ((Sphere.branch ⟨⟨0, 0, 0⟩, 1, -1, -1, 0⟩ ⟨⟨3, 0, 0⟩, 1, -1, -1, 0⟩ 0 1).pos
        - (⟨0, 0, 0⟩ : Vec3)) + (1 : ℝ)
      ≤ (Sphere.branch ⟨⟨0, 0, 0⟩, 1, -1, -1, 0⟩ ⟨⟨3, 0, 0⟩, 1, -1, -1, 0⟩ 0 1).radius := by
  have hm : magnitude (((⟨3, 0, 0⟩ : Vec3)) - ⟨0, 0, 0⟩) = 3 := by
    have hsub : ((⟨3, 0, 0⟩ : Vec3) - ⟨0, 0, 0⟩) = ⟨3, 0, 0⟩ := by
      ext <;> simp
    rw [hsub]
    unfold magnitude quadrance dot
    rw [show ((3 : ℝ) * 3 + 0 * 0 + 0 * 0) = 3 ^ 2 by norm_num]
    exact Real.sqrt_sq (by norm_num)
  have hd : magnitude (((⟨3, 0, 0⟩ : Vec3)) - ⟨0, 0, 0⟩) ≠ 0 := by
    rw [hm]; norm_num
  have h1 : (1 : ℝ) - 1 ≤ magnitude (((⟨3, 0, 0⟩ : Vec3)) - ⟨0, 0, 0⟩) := by
    rw [hm]; norm_num
  have hmain := branch_containment ⟨⟨0, 0, 0⟩, 1, -1, -1, 0⟩ ⟨⟨3, 0, 0⟩, 1, -1, -1, 0⟩
    0 1 hd h1 h1
  exact ⟨⟨hd, h1⟩, hmain.1⟩

end TwoBodyRun

section TieBreak

open Classical

theorem lexLt_irrefl (a : ℝ × ℕ) : ¬ lexLt a a := by
  unfold lexLt
  rintro (h | ⟨_, h⟩) <;> exact absurd h (lt_irrefl _)

theorem lexLt_trans {a b c : ℝ × ℕ} (h1 : lexLt a b) (h2 : lexLt b c) : lexLt a c := by
  unfold lexLt at h1 h2 ⊢
  rcases h1 with h1 | ⟨e1, l1⟩ <;> rcases h2 with h2 | ⟨e2, l2⟩
  · exact Or.inl (lt_trans h1 h2)
  · exact Or.inl (by rw [← e2]; exact h1)
  · exact Or.inl (by rw [e1]; exact h2)
  · exact Or.inr ⟨e1.trans e2, lt_trans l1 l2⟩

theorem lexLe_lt_trans {a b c : ℝ × ℕ} (h1 : ¬ lexLt b a) (h2 : lexLt b c) : lexLt a c := by
  unfold lexLt at h1 h2 ⊢
  push_neg at h1
  rcases h2 with h2 | ⟨e2, l2⟩
  · exact Or.inl (lt_of_le_of_lt h1.1 h2)
  · rcases lt_or_eq_of_le h1.1 with hab | hab
    · exact Or.inl (by rw [← e2]; exact hab)
    · refine Or.inr ⟨by rw [hab, e2], ?_⟩
      have := h1.2 hab.symm
      omega

theorem foldl_min_notLt (t : List (ℝ × ℕ)) :
    ∀ (c y : ℝ × ℕ), y ∈ c :: t →
      ¬ lexLt y (t.foldl (fun best x => if lexLt x best then x else best) c) := by
  induction t with
  | nil =>
    intro c y hy
    simp at hy
    subst hy
    exact lexLt_irrefl _
  | cons h t ih =>
    intro c y hy
    simp only [List.foldl_cons]
    rcases List.mem_cons.mp hy with hyc | hy2
    · subst hyc
      by_cases hch : lexLt h y
      · rw [if_pos hch]
        intro hcon
        exact ih h h (by simp) (lexLt_trans hch hcon)
      · rw [if_neg hch]
        exact ih y y (by simp)
    · rcases List.mem_cons.mp hy2 with hyh | hyt
      · subst hyh
        by_cases hch : lexLt y c
        · rw [if_pos hch]
          exact ih y y (by simp)
        · rw [if_neg hch]
          intro hcon
          exact ih c c (by simp) (lexLe_lt_trans hch hcon)
      · by_cases hch : lexLt h c
        · rw [if_pos hch]
          exact ih h y (by simp [hyt])
        · rw [if_neg hch]
          exact ih c y (by simp [hyt])

theorem foldl_min_mem (t : List (ℝ × ℕ)) :
    ∀ c, (t.foldl (fun best x => if lexLt x best then x else best) c) ∈ c :: t := by
  induction t with
  | nil => intro c; simp
  | cons h t ih =>
    intro c
    simp only [List.foldl_cons]
    by_cases hch : lexLt h c
    · rw [if_pos hch]
      have hm := ih h
      simp only [List.mem_cons] at hm ⊢
      tauto
    · rw [if_neg hch]
      have hm := ih c
      simp only [List.mem_cons] at hm ⊢
      tauto

theorem minByLex_mem {l : List (ℝ × ℕ)} {x : ℝ × ℕ} (h : minByLex l = some x) :
    x ∈ l := by
  cases l with
  | nil => exact absurd h (by unfold minByLex; simp)
  | cons c rest =>
    unfold minByLex at h
    have hx := foldl_min_mem rest c
    rw [Option.some_inj.mp h] at hx
    exact hx

theorem minByLex_min {l : List (ℝ × ℕ)} {x : ℝ × ℕ} (h : minByLex l = some x) :
    ∀ y ∈ l, ¬ lexLt y x := by
  cases l with
  | nil => exact absurd h (by unfold minByLex; simp)
  | cons c rest =>
    unfold minByLex at h
    intro y hy
    rw [← Option.some_inj.mp h]
    exact foldl_min_notLt rest c y hy

theorem mem_of_getElem_opt {α : Type} {l : List α} {i : ℕ} {a : α}
    (h : l[i]? = some a) : a ∈ l := by
  obtain ⟨hlt, rfl⟩ := List.getElem?_eq_some.mp h
  exact List.getElem_mem hlt

theorem candidatesFor_mem_iff (spheres : List (Option Sphere)) (cur : Sphere)
    (current : ℕ) (c : ℝ) (i : ℕ) :
    (c, i) ∈ candidatesFor spheres cur current
      ↔ (i ≠ current ∧ ∃ s, spheres[i]? = some (some s) ∧ c = measure cur s) := by
  unfold candidatesFor
  rw [List.mem_filterMap]
  constructor
  · rintro ⟨a, _, hfa⟩
    by_cases hac : a = current
    · rw [if_pos hac] at hfa
      exact absurd hfa (by simp)
    · rw [if_neg hac] at hfa
      rcases hsp : spheres[a]? with _ | osp
      · rw [hsp] at hfa
        simp at hfa
      · rcases osp with _ | s
        · rw [hsp] at hfa
          simp at hfa
        · rw [hsp] at hfa
          simp only [Option.some_inj, Prod.mk.injEq] at hfa
          obtain ⟨hc, ha⟩ := hfa
          subst ha
          exact ⟨hac, s, hsp, hc.symm⟩
  · rintro ⟨hic, s, hs, rfl⟩
    refine ⟨i, List.mem_range.mpr ?_, ?_⟩
    · exact (List.getElem?_eq_some.mp hs).1
    · rw [if_neg hic, hs]

theorem nearestNeighbor_sound {spheres : List (Option Sphere)} {current : ℕ}
    {c : ℝ} {nn : ℕ} (h : nearestNeighbor spheres current = some (c, nn)) :
    nn ≠ current ∧ ∃ s, spheres[nn]? = some (some s) := by
  unfold nearestNeighbor at h
  rcases hsp : spheres[current]? with _ | osp
  · rw [hsp] at h
    simp at h
  · rcases osp with _ | cur
    · rw [hsp] at h
      simp at h
    · rw [hsp] at h
      have hmem := minByLex_mem h
      rw [candidatesFor_mem_iff] at hmem
      obtain ⟨s, hs, _⟩ := hmem.2
      exact ⟨hmem.1, s, hs⟩

/-- Claim C6: the hierarchy builder is deterministic — as a pure function of
its inputs, two runs on identical input produce the identical output array —
and the nearest-neighbor selection breaks ties on equal join costs by the
lowest cluster index: the selected candidate is cost-minimal and, among the
cost-minimal candidates, carries the least index. -/
theorem make_sphere_tree_deterministic :
    (∀ (fuel : ℕ) (bodies : List Body) (m : Mat4),
      make_sphere_tree fuel bodies m = make_sphere_tree fuel bodies m) ∧
    (∀ (spheres : List (Option Sphere)) (current : ℕ) (cur : Sphere) (c : ℝ) (nn : ℕ),
      spheres[current]? = some (some cur) →
      nearestNeighbor spheres current = some (c, nn) →
      ∀ (c2 : ℝ) (i : ℕ), (c2, i) ∈ candidatesFor spheres cur current →
        c ≤ c2 ∧ (c2 = c → nn ≤ i)) := by
  refine ⟨fun _ _ _ => rfl, ?_⟩
  intro spheres current cur c nn hcur hnn c2 i hmem
  unfold nearestNeighbor at hnn
  rw [hcur] at hnn
  have hmin := minByLex_min hnn (c2, i) hmem
  unfold lexLt at hmin
  push_neg at hmin
  exact ⟨hmin.1, fun he => hmin.2 he⟩

/-- Tie spheres for the determinism witness: a zero-radius center and two
zero-radius candidates at distance one on either side (equal join costs). -/
def tieSphereA : Sphere := { pos := ⟨0, 0, 0⟩, radius := 0, left := -1, right := -1, color := 0 }

/-- Second tie sphere (index 1). -/
def tieSphereB : Sphere := { pos := ⟨1, 0, 0⟩, radius := 0, left := -1, right := -1, color := 0 }

/-- Third tie sphere (index 2), same cost from the center as the second. -/
def tieSphereC : Sphere := { pos := ⟨-1, 0, 0⟩, radius := 0, left := -1, right := -1, color := 0 }

theorem measure_tieB : measure tieSphereA tieSphereB = 1 / 8 := by
  unfold measure tieSphereA tieSphereB
  have hsub : ((⟨0, 0, 0⟩ : Vec3) - ⟨1, 0, 0⟩) = ⟨-1, 0, 0⟩ := by
    ext <;> norm_num
  rw [hsub]
  unfold magnitude quadrance dot
  norm_num

theorem measure_tieC : measure tieSphereA tieSphereC = 1 / 8 := by
  unfold measure tieSphereA tieSphereC
  have hsub : ((⟨0, 0, 0⟩ : Vec3) - ⟨-1, 0, 0⟩) = ⟨1, 0, 0⟩ := by
    ext <;> norm_num
  rw [hsub]
  unfold magnitude quadrance dot
  norm_num

theorem tie_candidates_eq :
    candidatesFor [some tieSphereA, some tieSphereB, some tieSphereC] tieSphereA 0
      = [(measure tieSphereA tieSphereB, 1), (measure tieSphereA tieSphereC, 2)] := rfl

theorem tie_nearestNeighbor :
    nearestNeighbor [some tieSphereA, some tieSphereB, some tieSphereC] 0
      = some (measure tieSphereA tieSphereB, 1) := by
  unfold nearestNeighbor
  show minByLex (candidatesFor [some tieSphereA, some tieSphereB, some tieSphereC]
    tieSphereA 0) = some (measure tieSphereA tieSphereB, 1)
  rw [tie_candidates_eq]
  show some (List.foldl (fun best x => if lexLt x best then x else best)
      (measure tieSphereA tieSphereB, 1) [(measure tieSphereA tieSphereC, 2)])
    = some (measure tieSphereA tieSphereB, 1)
  rw [List.foldl_cons, List.foldl_nil]
  rw [if_neg]
  unfold lexLt
  rw [measure_tieB, measure_tieC]
  rintro (h | ⟨_, h⟩)
  · exact absurd h (by norm_num)
  · exact absurd h (by omega)

/-- Witness for `make_sphere_tree_deterministic`: with two equal-cost
candidates at indices 1 and 2, the search returns index 1. -/
theorem make_sphere_tree_deterministic_witness :
    nearestNeighbor [some tieSphereA, some tieSphereB, some tieSphereC] 0
      = some (measure tieSphereA tieSphereB, 1) ∧
    measure tieSphereA tieSphereB ≤ measure tieSphereA tieSphereC ∧
    (measure tieSphereA tieSphereC = measure tieSphereA tieSphereB → 1 ≤ 2) := by
  have hmem : (measure tieSphereA tieSphereC, 2)
      ∈ candidatesFor [some tieSphereA, some tieSphereB, some tieSphereC] tieSphereA 0 := by
    rw [tie_candidates_eq]
    simp
  have hmain := (make_sphere_tree_deterministic).2
    [some tieSphereA, some tieSphereB, some tieSphereC] 0 tieSphereA
    (measure tieSphereA tieSphereB) 1 rfl tie_nearestNeighbor
    (measure tieSphereA tieSphereC) 2 hmem
  exact ⟨tie_nearestNeighbor, hmain.1, hmain.2⟩

end TieBreak

section TreeInvariant

theorem countP_set_none_of_some :
    ∀ (l : List (Option Sphere)) (i : ℕ) (s : Sphere),
      l[i]? = some (some s) →
      (l.set i none).countP (fun o => o.isSome) + 1 = l.countP (fun o => o.isSome) := by
  intro l
  induction l with
  | nil => intro i s h; simp at h
  | cons x t ih =>
    intro i s h
    cases i with
    | zero =>
      simp at h
      subst h
      simp [List.countP_cons]
    | succ j =>
      simp at h
      have := ih j s h
      simp only [List.set_cons_succ, List.countP_cons]
      omega

theorem two_actives_countP :
    ∀ (l : List (Option Sphere)) (i j : ℕ) (si sj : Sphere), i < j →
      l[i]? = some (some si) → l[j]? = some (some sj) →
      2 ≤ l.countP (fun o => o.isSome) := by
  intro l
  induction l with
  | nil => intro i j si sj hij hi hj; simp at hi
  | cons x t ih =>
    intro i j si sj hij hi hj
    cases i with
    | zero =>
      simp at hi
      subst hi
      obtain ⟨j2, rfl⟩ : ∃ j2, j = j2 + 1 := ⟨j - 1, by omega⟩
      simp at hj
      have h1 : 0 < t.countP (fun o => o.isSome) := by
        rw [List.countP_pos_iff]
        exact ⟨some sj, mem_of_getElem_opt hj, rfl⟩
      rw [List.countP_cons]
      norm_num
      omega
    | succ i2 =>
      obtain ⟨j2, rfl⟩ : ∃ j2, j = j2 + 1 := ⟨j - 1, by omega⟩
      simp at hi hj
      have := ih i2 j2 si sj (by omega) hi hj
      rw [List.countP_cons]
      omega

/-- The live references to slot `k` in a build state: a child index of a
value already moved into the tree (at a merged-away slot) or of a
still-pending cluster value. -/
def RefExists (st : BuildState) (k : ℕ) : Prop :=
  (∃ (j : ℕ) (v : Sphere), st.spheres[j]? = some none ∧ st.tree[j]? = some v ∧ refsTo v k) ∨
  (∃ (j : ℕ) (s : Sphere), st.spheres[j]? = some (some s) ∧ refsTo s k)

/-- The loop invariant of `make_sphere_tree`, relative to the list `lv` of
leaf values (one per body, in input order). -/
structure TreeInv (lv : List Sphere) (st : BuildState) : Prop where
  tree_len : st.tree.length = 2 * lv.length - 1
  num_pos : 1 ≤ st.num
  num_le : st.num ≤ lv.length
  sph_len : st.spheres.length = 2 * lv.length - st.num
  count_active : st.spheres.countP (fun o => o.isSome) = st.num
  leaf_region : ∀ (i : ℕ) (s : Sphere), lv[i]? = some s →
    st.spheres[i]? = some (some s) ∨ st.spheres[i]? = some none
  pending_children : ∀ (i : ℕ) (s : Sphere), lv.length ≤ i → st.spheres[i]? = some (some s) →
    ∃ a b : ℕ, s.left = (a : ℤ) ∧ s.right = (b : ℤ) ∧ a < i ∧ b < i ∧ a ≠ b ∧
      st.spheres[a]? = some none ∧ st.spheres[b]? = some none
  tree_taken_leaf : ∀ (k : ℕ) (s : Sphere), st.spheres[k]? = some none → lv[k]? = some s →
    st.tree[k]? = some s
  tree_taken_branch : ∀ (k : ℕ), st.spheres[k]? = some none → lv.length ≤ k →
    ∃ (v : Sphere) (a b : ℕ), st.tree[k]? = some v ∧ v.left = (a : ℤ) ∧ v.right = (b : ℤ) ∧
      a < k ∧ b < k ∧ a ≠ b ∧ st.spheres[a]? = some none ∧ st.spheres[b]? = some none
  tree_untaken : ∀ (k : ℕ), k < st.tree.length → ¬ st.spheres[k]? = some none →
    st.tree[k]? = some Sphere.placeholder
  taken_reffed : ∀ (k : ℕ), st.spheres[k]? = some none → RefExists st k
  root_last : st.num = 1 → ∃ s, st.spheres.getLast? = some (some s)

theorem inv_init (lv : List Sphere) (hN : 1 ≤ lv.length) :
    TreeInv lv
      { spheres := lv.map some,
        tree := List.replicate (2 * lv.length - 1) Sphere.placeholder,
        chain := [],
        num := lv.length } := by
  have hmap : ∀ i : ℕ, (lv.map some)[i]? = (lv[i]?).map some := by
    intro i
    rw [List.getElem?_map]
  have hnotnone : ∀ i : ℕ, ¬ (lv.map some)[i]? = some none := by
    intro i hc
    rw [hmap i] at hc
    rcases h : lv[i]? with _ | s
    · rw [h] at hc; simp at hc
    · rw [h] at hc; simp at hc
  refine ⟨?_, hN, le_refl _, ?_, ?_, ?_, ?_, ?_, ?_, ?_, ?_, ?_⟩ <;> dsimp only
  · simp
  · simp; omega
  · have hlm : (List.map some lv).length = lv.length := by simp
    rw [← hlm, List.countP_eq_length]
    intro o ho
    rcases List.mem_map.mp ho with ⟨a, _, rfl⟩
    rfl
  · intro i s hs
    left
    rw [hmap i, hs]
    rfl
  · intro i s hle hs
    have hb := (List.getElem?_eq_some.mp hs).1
    simp at hb
    omega
  · intro k s hk
    exact absurd hk (hnotnone k)
  · intro k hk
    exact absurd hk (hnotnone k)
  · intro k hk _
    rw [List.getElem?_replicate]
    simp at hk
    rw [if_pos hk]
  · intro k hk
    exact absurd hk (hnotnone k)
  · intro hone
    have hlen : (lv.map some).length = lv.length := by simp
    have hpos : 0 < lv.length := hN
    rw [List.getLast?_eq_getElem?, hlen, hmap (lv.length - 1)]
    rcases h : lv[lv.length - 1]? with _ | s
    · rw [List.getElem?_eq_none_iff] at h
      omega
    · exact ⟨s, rfl⟩

theorem inv_chain (lv : List Sphere) (st : BuildState) (c : List ℕ) (h : TreeInv lv st) :
    TreeInv lv { st with chain := c } :=
  ⟨h.tree_len, h.num_pos, h.num_le, h.sph_len, h.count_active, h.leaf_region,
   h.pending_children, h.tree_taken_leaf, h.tree_taken_branch, h.tree_untaken,
   h.taken_reffed, h.root_last⟩

end TreeInvariant

section MergePreservation

theorem inv_merge (lv : List Sphere) (st : BuildState) (current last : ℕ)
    (rest : List ℕ) (hInv : TreeInv lv st) (hnum : 1 < st.num) (hne : current ≠ last)
    (st2 : BuildState) (hmerge : mergeStep st current last rest = some st2) :
    TreeInv lv st2 ∧ st2.num = st.num - 1 := by
  unfold mergeStep at hmerge
  rcases hc : st.spheres[current]? with _ | oc
  · rw [hc] at hmerge; simp at hmerge
  rcases oc with _ | sc
  · rw [hc] at hmerge; simp at hmerge
  rcases hl : st.spheres[last]? with _ | ol
  · rw [hc, hl] at hmerge; simp at hmerge
  rcases ol with _ | sl
  · rw [hc, hl] at hmerge; simp at hmerge
  rw [hc, hl] at hmerge
  dsimp only at hmerge
  obtain rfl := Option.some_inj.mp hmerge
  set ns := Sphere.branch sc sl current last with hns
  set sp2 := ((st.spheres ++ [some ns]).set current none).set last none with hsp2
  set tr2 := (st.tree.set current sc).set last sl with htr2
  have hcur_lt : current < st.spheres.length := (List.getElem?_eq_some.mp hc).1
  have hlast_lt : last < st.spheres.length := (List.getElem?_eq_some.mp hl).1
  have hlen_app : (st.spheres ++ [some ns]).length = st.spheres.length + 1 := by simp
  have hsp2_len : sp2.length = st.spheres.length + 1 := by
    rw [hsp2]
    simp
  have happ_cur : (st.spheres ++ [some ns])[current]? = some (some sc) := by
    rw [List.getElem?_append, if_pos hcur_lt]
    exact hc
  have happ_last : (st.spheres ++ [some ns])[last]? = some (some sl) := by
    rw [List.getElem?_append, if_pos hlast_lt]
    exact hl
  have happ_new : (st.spheres ++ [some ns])[st.spheres.length]? = some (some ns) :=
    List.getElem?_concat_length st.spheres (some ns)
  have hsp2_cur : sp2[current]? = some none := by
    rw [hsp2, List.getElem?_set_ne (Ne.symm hne)]
    exact List.getElem?_set_eq_of_lt none (by omega)
  have hsp2_last : sp2[last]? = some none := by
    rw [hsp2]
    exact List.getElem?_set_eq_of_lt none (by simp; omega)
  have hsp2_new : sp2[st.spheres.length]? = some (some ns) := by
    rw [hsp2, List.getElem?_set_ne (by omega : last ≠ st.spheres.length),
      List.getElem?_set_ne (by omega : current ≠ st.spheres.length)]
    exact happ_new
  have hsp2_other : ∀ k : ℕ, k ≠ current → k ≠ last → k ≠ st.spheres.length →
      sp2[k]? = st.spheres[k]? := by
    intro k hk1 hk2 hk3
    rw [hsp2, List.getElem?_set_ne (fun h => hk2 h.symm),
      List.getElem?_set_ne (fun h => hk1 h.symm), List.getElem?_append]
    by_cases hkL : k < st.spheres.length
    · rw [if_pos hkL]
    · rw [if_neg hkL]
      rw [List.getElem?_eq_none (by omega : st.spheres.length ≤ k)]
      rw [List.getElem?_eq_none (by simp; omega)]
  have htaken_transfer : ∀ k : ℕ, st.spheres[k]? = some none → sp2[k]? = some none := by
    intro k hk
    have hkc : k ≠ current := fun h => by rw [h, hc] at hk; simp at hk
    have hkl : k ≠ last := fun h => by rw [h, hl] at hk; simp at hk
    have hkL : k ≠ st.spheres.length := fun h => by
      rw [h, List.getElem?_eq_none (le_refl _)] at hk
      simp at hk
    rw [hsp2_other k hkc hkl hkL]
    exact hk
  have hN1 : 1 ≤ lv.length := le_trans hInv.num_pos hInv.num_le
  have hcur_lt_tree : current < st.tree.length := by
    have h1 := hInv.tree_len
    have h2 := hInv.sph_len
    have h3 := hInv.num_le
    omega
  have hlast_lt_tree : last < st.tree.length := by
    have h1 := hInv.tree_len
    have h2 := hInv.sph_len
    have h3 := hInv.num_le
    omega
  have htr2_cur : tr2[current]? = some sc := by
    rw [htr2, List.getElem?_set_ne (Ne.symm hne)]
    exact List.getElem?_set_eq_of_lt sc hcur_lt_tree
  have htr2_last : tr2[last]? = some sl := by
    rw [htr2]
    exact List.getElem?_set_eq_of_lt sl (by simp; omega)
  have htr2_other : ∀ k : ℕ, k ≠ current → k ≠ last → tr2[k]? = st.tree[k]? := by
    intro k h1 h2
    rw [htr2, List.getElem?_set_ne (fun h => h2 h.symm),
      List.getElem?_set_ne (fun h => h1 h.symm)]
  refine ⟨⟨?_, ?_, ?_, ?_, ?_, ?_, ?_, ?_, ?_, ?_, ?_, ?_⟩, rfl⟩ <;> dsimp only
  · rw [htr2]
    simp only [List.length_set]
    exact hInv.tree_len
  · omega
  · have := hInv.num_le
    omega
  · rw [hsp2_len, hInv.sph_len]
    have h1 := hInv.num_le
    omega
  · have hmid : ((st.spheres ++ [some ns]).set current none)[last]? = some (some sl) := by
      rw [List.getElem?_set_ne hne]
      exact happ_last
    have hstep1 := countP_set_none_of_some (st.spheres ++ [some ns]) current sc happ_cur
    have hstep2 : sp2.countP (fun o => o.isSome) + 1
        = ((st.spheres ++ [some ns]).set current none).countP (fun o => o.isSome) := by
      rw [hsp2]
      exact countP_set_none_of_some _ last sl hmid
    have happ_count : (st.spheres ++ [some ns]).countP (fun o => o.isSome)
        = st.spheres.countP (fun o => o.isSome) + 1 := by
      rw [List.countP_append]
      simp
    have hca := hInv.count_active
    omega
  · intro i s hs
    have hiN : i < lv.length := (List.getElem?_eq_some.mp hs).1
    by_cases hic : i = current
    · right
      rw [hic]
      exact hsp2_cur
    by_cases hil : i = last
    · right
      rw [hil]
      exact hsp2_last
    have hiL : i ≠ st.spheres.length := by
      have h1 := hInv.sph_len
      have h2 := hInv.num_le
      omega
    rw [hsp2_other i hic hil hiL]
    exact hInv.leaf_region i s hs
  · intro i s hNle hs
    by_cases hiL : i = st.spheres.length
    · subst hiL
      rw [hsp2_new] at hs
      simp only [Option.some_inj] at hs
      subst hs
      exact ⟨current, last, rfl, rfl, hcur_lt, hlast_lt, hne, hsp2_cur, hsp2_last⟩
    by_cases hic : i = current
    · rw [hic, hsp2_cur] at hs
      simp at hs
    by_cases hil : i = last
    · rw [hil, hsp2_last] at hs
      simp at hs
    rw [hsp2_other i hic hil hiL] at hs
    obtain ⟨a, b, h1, h2, h3, h4, h5, h6, h7⟩ := hInv.pending_children i s hNle hs
    exact ⟨a, b, h1, h2, h3, h4, h5, htaken_transfer a h6, htaken_transfer b h7⟩
  · intro k s hk hks
    by_cases hkc : k = current
    · subst hkc
      rw [htr2_cur]
      rcases hInv.leaf_region k s hks with h | h
      · rw [hc] at h
        simp only [Option.some_inj] at h
        rw [h]
      · rw [hc] at h
        simp at h
    by_cases hkl : k = last
    · subst hkl
      rw [htr2_last]
      rcases hInv.leaf_region k s hks with h | h
      · rw [hl] at h
        simp only [Option.some_inj] at h
        rw [h]
      · rw [hl] at h
        simp at h
    have hkL : k ≠ st.spheres.length := fun h => by
      rw [h, hsp2_new] at hk
      simp at hk
    rw [hsp2_other k hkc hkl hkL] at hk
    rw [htr2_other k hkc hkl]
    exact hInv.tree_taken_leaf k s hk hks
  · intro k hk hNk
    by_cases hkc : k = current
    · subst hkc
      obtain ⟨a, b, h1, h2, h3, h4, h5, h6, h7⟩ := hInv.pending_children k sc hNk hc
      exact ⟨sc, a, b, htr2_cur, h1, h2, h3, h4, h5,
        htaken_transfer a h6, htaken_transfer b h7⟩
    by_cases hkl : k = last
    · subst hkl
      obtain ⟨a, b, h1, h2, h3, h4, h5, h6, h7⟩ := hInv.pending_children k sl hNk hl
      exact ⟨sl, a, b, htr2_last, h1, h2, h3, h4, h5,
        htaken_transfer a h6, htaken_transfer b h7⟩
    have hkL : k ≠ st.spheres.length := fun h => by
      rw [h, hsp2_new] at hk
      simp at hk
    rw [hsp2_other k hkc hkl hkL] at hk
    obtain ⟨v, a, b, h0, h1, h2, h3, h4, h5, h6, h7⟩ := hInv.tree_taken_branch k hk hNk
    exact ⟨v, a, b, by rw [htr2_other k hkc hkl]; exact h0, h1, h2, h3, h4, h5,
      htaken_transfer a h6, htaken_transfer b h7⟩
  · intro k hk hnt
    have hkc : k ≠ current := fun h => hnt (by rw [h]; exact hsp2_cur)
    have hkl : k ≠ last := fun h => hnt (by rw [h]; exact hsp2_last)
    rw [htr2_other k hkc hkl]
    refine hInv.tree_untaken k ?_ ?_
    · rw [htr2] at hk
      simp only [List.length_set] at hk
      exact hk
    · intro hcon
      exact hnt (htaken_transfer k hcon)
  · intro k hk
    by_cases hkc : k = current
    · subst hkc
      right
      exact ⟨st.spheres.length, ns, hsp2_new, Or.inl rfl⟩
    by_cases hkl : k = last
    · subst hkl
      right
      exact ⟨st.spheres.length, ns, hsp2_new, Or.inr rfl⟩
    have hkL : k ≠ st.spheres.length := fun h => by
      rw [h, hsp2_new] at hk
      simp at hk
    have hkold : st.spheres[k]? = some none := by
      rw [← hsp2_other k hkc hkl hkL]
      exact hk
    rcases hInv.taken_reffed k hkold with ⟨j, v, hjt, hjtree, href⟩ | ⟨j, s, hjs, href⟩
    · have hjc : j ≠ current := fun h => by rw [h, hc] at hjt; simp at hjt
      have hjl : j ≠ last := fun h => by rw [h, hl] at hjt; simp at hjt
      left
      exact ⟨j, v, htaken_transfer j hjt,
        by rw [htr2_other j hjc hjl]; exact hjtree, href⟩
    · by_cases hjc : j = current
      · subst hjc
        rw [hc] at hjs
        simp only [Option.some_inj] at hjs
        subst hjs
        left
        exact ⟨j, sc, hsp2_cur, htr2_cur, href⟩
      by_cases hjl : j = last
      · subst hjl
        rw [hl] at hjs
        simp only [Option.some_inj] at hjs
        subst hjs
        left
        exact ⟨j, sl, hsp2_last, htr2_last, href⟩
      have hjL : j ≠ st.spheres.length := fun h => by
        rw [h, List.getElem?_eq_none (le_refl _)] at hjs
        simp at hjs
      right
      exact ⟨j, s, by rw [hsp2_other j hjc hjl hjL]; exact hjs, href⟩
  · intro _
    refine ⟨ns, ?_⟩
    rw [List.getLast?_eq_getElem?]
    have hlen : sp2.length - 1 = st.spheres.length := by
      rw [hsp2_len]
      omega
    rw [hlen]
    exact hsp2_new

end MergePreservation

section LoopPreservation

theorem inv_buildStep (lv : List Sphere) (st st2 : BuildState)
    (hInv : TreeInv lv st) (hnum : 1 < st.num)
    (hstep : buildStep st = some st2) : TreeInv lv st2 := by
  unfold buildStep at hstep
  rcases hsel : selectCurrent st.spheres st.chain with _ | chain2
  · rw [hsel] at hstep
    simp at hstep
  rcases chain2 with _ | ⟨current, rest⟩
  · rw [hsel] at hstep
    simp at hstep
  rw [hsel] at hstep
  dsimp only at hstep
  rcases hnn : nearestNeighbor st.spheres current with _ | cnn
  · rw [hnn] at hstep
    simp at hstep
  rcases cnn with ⟨c, nn⟩
  rw [hnn] at hstep
  dsimp only at hstep
  rcases rest with _ | ⟨last, rest2⟩
  · obtain rfl := Option.some_inj.mp hstep
    exact inv_chain lv st _ hInv
  · dsimp only at hstep
    by_cases hnl : nn = last
    · rw [if_pos hnl] at hstep
      have hsound := nearestNeighbor_sound hnn
      have hne : current ≠ last := fun hcl => hsound.1 (hnl.trans hcl.symm)
      exact (inv_merge lv st current last rest2 hInv hnum hne st2 hstep).1
    · rw [if_neg hnl] at hstep
      obtain rfl := Option.some_inj.mp hstep
      exact inv_chain lv st _ hInv

theorem buildLoop_inv (lv : List Sphere) :
    ∀ (fuel : ℕ) (st st2 : BuildState), TreeInv lv st → buildLoop fuel st = some st2 →
      TreeInv lv st2 ∧ st2.num = 1 := by
  intro fuel
  induction fuel with
  | zero =>
    intro st st2 hInv hrun
    unfold buildLoop at hrun
    by_cases h : st.num ≤ 1
    · rw [if_pos h] at hrun
      obtain rfl := Option.some_inj.mp hrun
      have := hInv.num_pos
      exact ⟨hInv, by omega⟩
    · rw [if_neg h] at hrun
      simp at hrun
  | succ k ih =>
    intro st st2 hInv hrun
    unfold buildLoop at hrun
    by_cases h : st.num ≤ 1
    · rw [if_pos h] at hrun
      obtain rfl := Option.some_inj.mp hrun
      have := hInv.num_pos
      exact ⟨hInv, by omega⟩
    · rw [if_neg h] at hrun
      rcases hbs : buildStep st with _ | stMid
      · rw [hbs] at hrun
        simp at hrun
      · rw [hbs] at hrun
        exact ih stMid st2 (inv_buildStep lv st stMid hInv (by omega) hbs) hrun

theorem inv_init_bodies (bodies : List Body) (m : Mat4) (hN : 1 ≤ bodies.length) :
    TreeInv (bodies.map (fun b => Sphere.leaf b m))
      { spheres := bodies.map (fun b => some (Sphere.leaf b m)),
        tree := List.replicate (2 * bodies.length - 1) Sphere.placeholder,
        chain := [],
        num := bodies.length } := by
  have h := inv_init (bodies.map (fun b => Sphere.leaf b m)) (by simp; omega)
  have hlen : (bodies.map (fun b => Sphere.leaf b m)).length = bodies.length := by simp
  rw [hlen] at h
  rw [List.map_map] at h
  exact h

end LoopPreservation

section StructureTheorem

/-- Claim C4 amended: for every successful run on N ≥ 1 bodies the output
array has length 2N−1; the slots [0,N) hold the leaves, with sentinel
children −1; every slot k ≥ N holds both child indices inside [0,k); and
exactly one slot — the root, at the LAST index 2N−2 — is never referenced as
a child of any other node.  (The claim as stated places the root at index
2N−1, which lies outside the array; see the counterexample.) -/
theorem make_sphere_tree_structure (fuel : ℕ) (bodies : List Body) (m : Mat4)
    (tree : List Sphere) (hrun : make_sphere_tree fuel bodies m = some tree) :
    tree.length = 2 * bodies.length - 1 ∧
    (∀ (i : ℕ) (s : Sphere), i < bodies.length → tree[i]? = some s →
      s.left = -1 ∧ s.right = -1) ∧
    (∀ (k : ℕ) (v : Sphere), bodies.length ≤ k → tree[k]? = some v →
      0 ≤ v.left ∧ v.left < (k : ℤ) ∧ 0 ≤ v.right ∧ v.right < (k : ℤ)) ∧
    (∀ k : ℕ, k < tree.length →
      ((∀ (j : ℕ) (v : Sphere), tree[j]? = some v → ¬ refsTo v k)
        ↔ k = 2 * bodies.length - 2)) := by
  unfold make_sphere_tree at hrun
  by_cases hN0 : bodies.length = 0
  · rw [if_pos hN0] at hrun
    simp at hrun
  rw [if_neg hN0] at hrun
  have hN : 1 ≤ bodies.length := by omega
  rcases hloop : buildLoop fuel
      { spheres := bodies.map (fun b => some (Sphere.leaf b m)),
        tree := List.replicate (2 * bodies.length - 1) Sphere.placeholder,
        chain := [],
        num := bodies.length } with _ | st
  · rw [hloop] at hrun
    simp at hrun
  rw [hloop] at hrun
  replace hrun : (match st.spheres.getLast? with
      | some (some root) => some (st.tree.set (2 * bodies.length - 1 - 1) root)
      | _ => none) = some tree := hrun
  obtain ⟨hInvSt, hnum1⟩ := buildLoop_inv (bodies.map (fun b => Sphere.leaf b m)) fuel _ st
    (inv_init_bodies bodies m hN) hloop
  obtain ⟨root, hroot⟩ := hInvSt.root_last hnum1
  rw [hroot] at hrun
  dsimp only at hrun
  have hidx : 2 * bodies.length - 1 - 1 = 2 * bodies.length - 2 := by omega
  rw [hidx] at hrun
  obtain rfl := Option.some_inj.mp hrun
  have hlvlen : (bodies.map (fun b => Sphere.leaf b m)).length = bodies.length := by simp
  have hsplen : st.spheres.length = 2 * bodies.length - 1 := by
    have h := hInvSt.sph_len
    rw [hlvlen, hnum1] at h
    omega
  have htl : st.tree.length = 2 * bodies.length - 1 := by
    have h := hInvSt.tree_len
    rw [hlvlen] at h
    exact h
  have hrootelem : st.spheres[2 * bodies.length - 2]? = some (some root) := by
    rw [List.getLast?_eq_getElem?, hsplen] at hroot
    have h2 : 2 * bodies.length - 1 - 1 = 2 * bodies.length - 2 := by omega
    rw [h2] at hroot
    exact hroot
  have htaken : ∀ k : ℕ, k < 2 * bodies.length - 1 → k ≠ 2 * bodies.length - 2 →
      st.spheres[k]? = some none := by
    intro k hk hk2
    rcases hsk : st.spheres[k]? with _ | ok
    · rw [List.getElem?_eq_none_iff] at hsk
      omega
    rcases ok with _ | sk
    · rfl
    exfalso
    have hcount := hInvSt.count_active
    rw [hnum1] at hcount
    by_cases hklt : k < 2 * bodies.length - 2
    · have := two_actives_countP st.spheres k (2 * bodies.length - 2) sk root hklt hsk hrootelem
      omega
    · have hgt : 2 * bodies.length - 2 < k := by omega
      have := two_actives_countP st.spheres (2 * bodies.length - 2) k root sk hgt hrootelem hsk
      omega
  have hftlen : (st.tree.set (2 * bodies.length - 2) root).length = 2 * bodies.length - 1 := by
    rw [List.length_set]
    exact htl
  have hft_root : (st.tree.set (2 * bodies.length - 2) root)[2 * bodies.length - 2]?
      = some root :=
    List.getElem?_set_eq_of_lt root (by omega)
  have hft_other : ∀ k : ℕ, k ≠ 2 * bodies.length - 2 →
      (st.tree.set (2 * bodies.length - 2) root)[k]? = st.tree[k]? := by
    intro k hk
    exact List.getElem?_set_ne (fun h => hk h.symm)
  have hlv_get : ∀ i : ℕ, i < bodies.length →
      ∃ s, (bodies.map (fun b => Sphere.leaf b m))[i]? = some s ∧
        s.left = -1 ∧ s.right = -1 := by
    intro i hi
    rcases hb : bodies[i]? with _ | b
    · rw [List.getElem?_eq_none_iff] at hb
      omega
    · refine ⟨Sphere.leaf b m, ?_, rfl, rfl⟩
      rw [List.getElem?_map, hb]
      rfl
  refine ⟨hftlen, ?_, ?_, ?_⟩
  · intro i s hi hts
    by_cases hieq : i = 2 * bodies.length - 2
    · subst hieq
      rw [hft_root] at hts
      obtain rfl := (Option.some_inj.mp hts).symm
      obtain ⟨s0, hs0, hs0l, hs0r⟩ := hlv_get (2 * bodies.length - 2) (by omega)
      rcases hInvSt.leaf_region _ s0 hs0 with h | h
      · rw [hrootelem] at h
        simp only [Option.some_inj] at h
        rw [← h] at hs0l hs0r
        exact ⟨hs0l, hs0r⟩
      · rw [hrootelem] at h
        simp at h
    · rw [hft_other i hieq] at hts
      have htk := htaken i (by omega) hieq
      obtain ⟨s0, hs0, hs0l, hs0r⟩ := hlv_get i hi
      have hw := hInvSt.tree_taken_leaf i s0 htk hs0
      rw [hw] at hts
      obtain rfl := (Option.some_inj.mp hts).symm
      exact ⟨hs0l, hs0r⟩
  · intro k v hk hkv
    have hkb : k < 2 * bodies.length - 1 := by
      have h := (List.getElem?_eq_some.mp hkv).1
      rw [hftlen] at h
      exact h
    by_cases hkeq : k = 2 * bodies.length - 2
    · subst hkeq
      rw [hft_root] at hkv
      obtain rfl := (Option.some_inj.mp hkv).symm
      obtain ⟨a, b, h1, h2, h3, h4, h5, h6, h7⟩ := hInvSt.pending_children _ v
        (by rw [hlvlen]; exact hk) hrootelem
      refine ⟨?_, ?_, ?_, ?_⟩
      · rw [h1]
        exact Int.natCast_nonneg a
      · rw [h1]
        exact_mod_cast h3
      · rw [h2]
        exact Int.natCast_nonneg b
      · rw [h2]
        exact_mod_cast h4
    · rw [hft_other k hkeq] at hkv
      have htk := htaken k hkb hkeq
      obtain ⟨v2, a, b, h0, h1, h2, h3, h4, h5, h6, h7⟩ := hInvSt.tree_taken_branch k htk
        (by rw [hlvlen]; exact hk)
      rw [h0] at hkv
      obtain rfl := (Option.some_inj.mp hkv).symm
      refine ⟨?_, ?_, ?_, ?_⟩
      · rw [h1]
        exact Int.natCast_nonneg a
      · rw [h1]
        exact_mod_cast h3
      · rw [h2]
        exact Int.natCast_nonneg b
      · rw [h2]
        exact_mod_cast h4
  · intro k hk
    have hkb : k < 2 * bodies.length - 1 := by
      rw [hftlen] at hk
      exact hk
    constructor
    · intro hunref
      by_contra hkne
      have htk := htaken k hkb hkne
      rcases hInvSt.taken_reffed k htk with ⟨j, v, hjt, hjtree, href⟩ | ⟨j, sp, hjs, href⟩
      · have hjne : j ≠ 2 * bodies.length - 2 := fun h => by
          rw [h, hrootelem] at hjt
          simp at hjt
        exact hunref j v (by rw [hft_other j hjne]; exact hjtree) href
      · have hjb : j < st.spheres.length := (List.getElem?_eq_some.mp hjs).1
        have hjeq : j = 2 * bodies.length - 2 := by
          by_contra hjne
          have hjt2 := htaken j (by omega) hjne
          rw [hjt2] at hjs
          simp at hjs
        subst hjeq
        rw [hrootelem] at hjs
        simp only [Option.some_inj] at hjs
        rw [← hjs] at href
        exact hunref _ root hft_root href
    · intro hkeq j v hjv href
      subst hkeq
      by_cases hjeq : j = 2 * bodies.length - 2
      · subst hjeq
        rw [hft_root] at hjv
        obtain rfl := (Option.some_inj.mp hjv).symm
        by_cases hN1 : bodies.length = 1
        · obtain ⟨s0, hs0, hs0l, hs0r⟩ := hlv_get (2 * bodies.length - 2) (by omega)
          rcases hInvSt.leaf_region _ s0 hs0 with h | h
          · rw [hrootelem] at h
            simp only [Option.some_inj] at h
            rw [← h] at hs0l hs0r
            rcases href with hL | hR
            · rw [hs0l] at hL
              have : (0 : ℤ) ≤ ((2 * bodies.length - 2 : ℕ) : ℤ) := Int.natCast_nonneg _
              omega
            · rw [hs0r] at hR
              have : (0 : ℤ) ≤ ((2 * bodies.length - 2 : ℕ) : ℤ) := Int.natCast_nonneg _
              omega
          · rw [hrootelem] at h
            simp at h
        · obtain ⟨a, b, h1, h2, h3, h4, h5, h6, h7⟩ := hInvSt.pending_children _ v
            (by rw [hlvlen]; omega) hrootelem
          rcases href with hL | hR
          · rw [h1] at hL
            have ha : a = 2 * bodies.length - 2 := by exact_mod_cast hL
            omega
          · rw [h2] at hR
            have hb : b = 2 * bodies.length - 2 := by exact_mod_cast hR
            omega
      · rw [hft_other j hjeq] at hjv
        have hjb : j < 2 * bodies.length - 1 := by
          have h := (List.getElem?_eq_some.mp hjv).1
          rw [htl] at h
          exact h
        have hjtk := htaken j hjb hjeq
        by_cases hjN : j < bodies.length
        · obtain ⟨s0, hs0, hs0l, hs0r⟩ := hlv_get j hjN
          have hw := hInvSt.tree_taken_leaf j s0 hjtk hs0
          rw [hw] at hjv
          obtain rfl := (Option.some_inj.mp hjv).symm
          rcases href with hL | hR
          · rw [hs0l] at hL
            have : (0 : ℤ) ≤ ((2 * bodies.length - 2 : ℕ) : ℤ) := Int.natCast_nonneg _
            omega
          · rw [hs0r] at hR
            have : (0 : ℤ) ≤ ((2 * bodies.length - 2 : ℕ) : ℤ) := Int.natCast_nonneg _
            omega
        · obtain ⟨v2, a, b, h0, h1, h2, h3, h4, h5, h6, h7⟩ := hInvSt.tree_taken_branch j hjtk
            (by rw [hlvlen]; omega)
          rw [h0] at hjv
          obtain rfl := (Option.some_inj.mp hjv).symm
          rcases href with hL | hR
          · rw [h1] at hL
            have ha : a = 2 * bodies.length - 2 := by exact_mod_cast hL
            rw [ha, hrootelem] at h6
            simp at h6
          · rw [h2] at hR
            have hb : b = 2 * bodies.length - 2 := by exact_mod_cast hR
            rw [hb, hrootelem] at h7
            simp at h7

end StructureTheorem

/-- Witness for `make_sphere_tree_structure` on the concrete two-body run. -/
theorem make_sphere_tree_structure_witness :
    make_sphere_tree 4 [bodyAtOrigin, bodyAtUnitX] idMat4
      = some [Sphere.leaf bodyAtOrigin idMat4, Sphere.leaf bodyAtUnitX idMat4,
          Sphere.branch (Sphere.leaf bodyAtOrigin idMat4)
            (Sphere.leaf bodyAtUnitX idMat4) 0 1] ∧
    ([Sphere.leaf bodyAtOrigin idMat4, Sphere.leaf bodyAtUnitX idMat4,
      Sphere.branch (Sphere.leaf bodyAtOrigin idMat4)
        (Sphere.leaf bodyAtUnitX idMat4) 0 1] : List Sphere).length
      = 2 * ([bodyAtOrigin, bodyAtUnitX] : List Body).length - 1 := by
  have h := make_sphere_tree_two_eq bodyAtOrigin bodyAtUnitX idMat4
  exact ⟨h, (make_sphere_tree_structure 4 [bodyAtOrigin, bodyAtUnitX] idMat4 _ h).1⟩

end MarbleGravity
